import Mathlib

/-! # lantern-image-loader: ring buffer, sampler and background loop

A shallow embedding of `headers/Loader.h` (class `LanternImageLoader`),
`headers/DataProcessing.h` (`GetRandomSampleClassIndex`) and `headers/File.h`
(`ReadCSVFile`, `CSVFile::Col`).

* `uint32_t` values are natural numbers; every `uint32_t` operation of the
  source is written with its reduction modulo `2 ^ 32`.
* `std::unordered_map<std::string, T>` is an association list.
* A call that waits on a condition variable is atomic under the mutex: it
  either finds its wait predicate true and runs its body, or it is `blocked`.
* `GetAsAF` goes on after `Get` released the mutex: its parts are separate
  steps of a run, between which a `Put` of the producer thread can run.
* The image decoder (`stbi_load` followed by `stbir_resize_uint8_linear`) and
  the random engine are outside the repository: each call receives the bytes
  the decoder produced, and each sampler call receives the list of values the
  engine produced.
-/

namespace Lantern

/-! ## Machine integers -/

/-- Multiplication of two `uint32_t` values. -/
def mul32 (a b : Nat) : Nat := (a * b) % 2 ^ 32

/-- Addition of two `uint32_t` values. -/
def add32 (a b : Nat) : Nat := (a + b) % 2 ^ 32

/-- Subtraction of two `uint32_t` values. -/
def sub32 (a b : Nat) : Nat := (a + 2 ^ 32 - b % 2 ^ 32) % 2 ^ 32

/-! ## Template parameters -/

/-- Template parameters `<TOTAL_IMAGES, IMG_WIDTH, IMG_HEIGHT, IsColor>`. -/
structure Params where
  TOTAL_IMAGES : Nat
  IMG_WIDTH : Nat
  IMG_HEIGHT : Nat
  IsColor : Bool
deriving Repr, DecidableEq

/-- The expression `(IsColor ? 3 : 1)`. -/
def Params.channels (P : Params) : Nat := if P.IsColor then 3 else 1

/-- The expression `i * IMG_WIDTH * IMG_HEIGHT * (IsColor ? 3 : 1)`, evaluated
left to right in `uint32_t`, as `Put` (with `i = tail`) and `Get` (with
`i = head`) compute the offset of slot `i`. -/
def Params.slotOffset (P : Params) (i : Nat) : Nat :=
  mul32 (mul32 (mul32 i P.IMG_WIDTH) P.IMG_HEIGHT) P.channels

/-- Member `allocation`:
`TOTAL_IMAGES * IMG_WIDTH * IMG_HEIGHT * (IsColor ? 3 : 1)` in `uint32_t`. -/
def Params.allocation (P : Params) : Nat :=
  mul32 (mul32 (mul32 P.TOTAL_IMAGES P.IMG_WIDTH) P.IMG_HEIGHT) P.channels

/-- Number of bytes `stbir_resize_uint8_linear` writes for one image of
`IMG_WIDTH x IMG_HEIGHT` pixels. -/
def Params.slotBytes (P : Params) : Nat := P.IMG_WIDTH * P.IMG_HEIGHT * P.channels

/-! ## Unordered maps keyed by strings -/

/-- Lookup `m.find(k)`. -/
def mapFind {α : Type} (m : List (String × α)) (k : String) : Option α :=
  match m with
  | [] => none
  | (k', v) :: rest => if k' = k then some v else mapFind rest k

/-- Membership `m.contains(k)`. -/
def mapContains {α : Type} (m : List (String × α)) (k : String) : Bool :=
  (mapFind m k).isSome

/-- Assignment `m[k] = v`. -/
def mapSet {α : Type} (m : List (String × α)) (k : String) (v : α) : List (String × α) :=
  match m with
  | [] => [(k, v)]
  | (k', v') :: rest => if k' = k then (k, v) :: rest else (k', v') :: mapSet rest k v

/-- Access `m[k]`: the value stored under `k`, a default-constructed value being
inserted first when `k` is absent. Returns the value and the map. -/
def mapIndex {α : Type} (m : List (String × α)) (k : String) (dflt : α) :
    α × List (String × α) :=
  match mapFind m k with
  | some v => (v, m)
  | none => (dflt, mapSet m k dflt)

/-! ## Pixel buffers -/

/-- Bytes are natural numbers below 256; a buffer is the list of its bytes. -/
abbrev Bytes := List Nat

/-- Store `src` into `buf` starting at byte offset `off`. -/
def writeAt (buf : Bytes) (off : Nat) (src : Bytes) : Bytes :=
  buf.take off ++ src ++ buf.drop (off + src.length)

/-- The `n` bytes of `buf` starting at byte offset `off`. -/
def readAt (buf : Bytes) (off n : Nat) : Bytes :=
  (buf.drop off).take n

/-! ## Loader state -/

/-- Data members of `LanternImageLoader` (the mutex, the condition variables,
the thread handle and the CSV label tables are left out). -/
structure Loader where
  each_class_sizes : List Nat
  image_paths : List (String × List String)
  image_cache : List (String × Bytes)
  label_cache : List (String × List String)
  active_dataset : String
  stop_thread : Bool
  head : Nat
  tail : Nat
  count : Nat
deriving Repr, DecidableEq

/-- A freshly constructed loader: `head = 0, tail = 0, count = 0`, no dataset. -/
def Loader.init : Loader :=
  { each_class_sizes := [], image_paths := [], image_cache := [], label_cache := [],
    active_dataset := "", stop_thread := false, head := 0, tail := 0, count := 0 }

/-- How a call ends. -/
inductive Res (α : Type) where
  /-- the call returned -/
  | ok (a : α)
  /-- the wait predicate is false: the caller sleeps on the condition variable -/
  | blocked
  /-- the call threw `std::runtime_error(what)` -/
  | threw (what : String)
  /-- the call wrote outside its buffer -/
  | undefined
deriving Repr, DecidableEq

/-- Method `Put(image_path)`. `loaded` is what the decoder gives for this call:
`none` when `stbi_load` returns a null pointer, `some pixels` for the bytes
`stbir_resize_uint8_linear` stores at the destination pointer. `parent_dir`
stands for `std::filesystem::path(p).parent_path().filename().string()`. -/
def Put (P : Params) (parent_dir : String → String) (s : Loader) (image_path : String)
    (loaded : Option Bytes) : Res Loader :=
  if ¬ (s.count < P.TOTAL_IMAGES ∨ s.stop_thread = true) then Res.blocked
  else if s.stop_thread = true then Res.ok s
  else if s.active_dataset = "" then
    Res.threw "Error LanternImageLoader, No dataset selected"
  else
    let (image_data, cache1) := mapIndex s.image_cache s.active_dataset []
    let (label_data, labels1) :=
      mapIndex s.label_cache s.active_dataset (List.replicate P.TOTAL_IMAGES "")
    let s1 := { s with image_cache := cache1, label_cache := labels1 }
    match loaded with
    | none => Res.ok s1
    | some pixels =>
      let off := P.slotOffset s.tail
      if off + pixels.length ≤ image_data.length then
        Res.ok { s1 with
          image_cache := mapSet cache1 s.active_dataset (writeAt image_data off pixels)
          label_cache := mapSet labels1 s.active_dataset
            (label_data.set s.tail (parent_dir image_path))
          tail := add32 s.tail 1 % P.TOTAL_IMAGES
          count := add32 s.count 1 }
      else Res.undefined

/-- Method `Get()`. The result is `none` for `nullptr` and `some off` for the
pointer `image_data.getData() + off`. -/
def Get (P : Params) (s : Loader) : Res (Option Nat × Loader) :=
  if ¬ (0 < s.count ∨ s.stop_thread = true) then Res.blocked
  else if s.stop_thread = true ∨ s.count = 0 then Res.ok (none, s)
  else
    let (_, cache1) := mapIndex s.image_cache s.active_dataset ([] : Bytes)
    Res.ok (some (P.slotOffset s.head),
      { s with
        image_cache := cache1
        head := add32 s.head 1 % P.TOTAL_IMAGES
        count := sub32 s.count 1 })

/-- Method `Stop()`: sets the stop flag (the join is not modelled). -/
def Stop (s : Loader) : Loader := { s with stop_thread := true }

/-- The bytes seen through the pointer `Get` returned, read from the active
dataset's pixel cache of `s`. -/
def viewAt (P : Params) (s : Loader) (off : Nat) : Bytes :=
  readAt ((mapFind s.image_cache s.active_dataset).getD []) off P.slotBytes

/-- One call on the loader, by the producer thread (`put`), the consumer
(`get`) or the owner (`stop`). -/
inductive Op where
  | put (image_path : String) (loaded : Option Bytes)
  | get
  | stop
deriving Repr, DecidableEq

/-- State after one call that returns; `none` when the call does not return. -/
def step (P : Params) (parent_dir : String → String) (s : Loader) : Op → Option Loader
  | Op.put image_path loaded =>
    match Put P parent_dir s image_path loaded with
    | Res.ok s1 => some s1
    | _ => none
  | Op.get =>
    match Get P s with
    | Res.ok (_, s1) => some s1
    | _ => none
  | Op.stop => some (Stop s)

/-- State after a sequence of calls, each of which returns. -/
def run (P : Params) (parent_dir : String → String) (s : Loader) : List Op → Option Loader
  | [] => some s
  | op :: ops =>
    match step P parent_dir s op with
    | some s1 => run P parent_dir s1 ops
    | none => none

/-- The ring invariant of the specification, for capacity `cap`. -/
def RingInv (cap : Nat) (s : Loader) : Prop :=
  s.head < cap ∧ s.tail < cap ∧ s.count ≤ cap ∧
  ((s.count ≠ 0 ∧ s.count ≠ cap) →
    (s.count : Int) = ((s.tail : Int) - (s.head : Int)) % (cap : Int)) ∧
  ((s.count = 0 ∨ s.count = cap) → s.head = s.tail)

/-- The index bookkeeping from which `RingInv` follows: `tail` is `count` slots
after `head`, circularly. -/
def RingCore (cap : Nat) (s : Loader) : Prop :=
  s.head < cap ∧ s.count ≤ cap ∧ s.tail = (s.head + s.count) % cap

/-- The pixel bytes a returning `Put` stores: nothing when it saw the stop flag
or when the decoder failed. -/
def written (s : Loader) (loaded : Option Bytes) : List Bytes :=
  if s.stop_thread = true then [] else loaded.toList

/-- Observable history of a sequence of calls, each of which returns: the
images stored by the successful `Put` calls, in call order, and the result of
each `Get` call, in call order (`none` for `nullptr`, otherwise the bytes seen
through the returned pointer when `Get` returns). -/
def trace (P : Params) (parent_dir : String → String) :
    Loader → List Op → Option (List Bytes × List (Option Bytes))
  | _, [] => some ([], [])
  | s, Op.put image_path loaded :: ops =>
    match Put P parent_dir s image_path loaded with
    | Res.ok s1 =>
      (trace P parent_dir s1 ops).map (fun t => (written s loaded ++ t.1, t.2))
    | _ => none
  | s, Op.get :: ops =>
    match Get P s with
    | Res.ok (ptr, s1) =>
      (trace P parent_dir s1 ops).map (fun t => (t.1, ptr.map (viewAt P s1) :: t.2))
    | _ => none
  | s, Op.stop :: ops => trace P parent_dir (Stop s) ops

/-- Every decoded image of the call sequence has the size of one slot. -/
def slotSized (P : Params) (ops : List Op) : Prop :=
  ∀ image_path pixels, Op.put image_path (some pixels) ∈ ops → pixels.length = P.slotBytes

/-- The images stored and not yet drained are `pending`, oldest first: they
occupy the `count` slots from `head` on, circularly, and the stop flag is
clear. -/
def FifoInv (P : Params) (s : Loader) (pending : List Bytes) : Prop :=
  RingCore P.TOTAL_IMAGES s ∧ s.stop_thread = false ∧ pending.length = s.count ∧
  ∀ i, i < s.count →
    pending[i]? = some (viewAt P s (((s.head + i) % P.TOTAL_IMAGES) * P.slotBytes))

/-- Size of the active dataset's pixel cache (`0` when there is none). -/
def cacheLength (s : Loader) : Nat :=
  ((mapFind s.image_cache s.active_dataset).getD []).length

/-- The slots used so far lie inside the pixel cache, whose size is a 32-bit
value: either all `TOTAL_IMAGES` slots do, or `tail` has not wrapped yet and the
slots below `tail` do. -/
def SlotsFit (P : Params) (s : Loader) : Prop :=
  cacheLength s < 2 ^ 32 ∧
  (P.TOTAL_IMAGES * P.slotBytes ≤ cacheLength s ∨
    (s.head + s.count = s.tail ∧ s.tail * P.slotBytes ≤ cacheLength s))

/-! ## Sampler (`DataProcessing.h`) -/

/-- The statement `index = dis(rg)` for
`dis = std::uniform_int_distribution<>(lo, hi)` with `uint32_t` bounds and a
`uint32_t` variable `index`: the bounds are converted to `int` and the result
back to `uint32_t`, so the possible values are `lo, lo + 1, ..., hi`, counted
modulo `2 ^ 32`. `r` is the next engine output; every value of the range is the
image of some `r`. For `lo ≤ hi < 2 ^ 32` the value is `lo + r % (hi - lo + 1)`. -/
def uniformInt (lo hi r : Nat) : Nat := add32 lo (r % (sub32 hi lo + 1))

/-- Local variables of `GetRandomSampleClassIndex` that the draw loops update:
the output vector, the set of indices already taken (a `std::unordered_set<int>`;
the conversion `uint32_t → int` is one-to-one, so the set is kept as the list of
the `uint32_t` values inserted), and the engine outputs not yet consumed. -/
structure Sampling where
  batch_index : List Nat
  already_add : List Nat
  rng : List Nat
deriving Repr, DecidableEq

/-- The draw-and-reject loop
`while(true){ index = dis(rg); if(already_add.insert(index).second){ batch_index.push_back(index); break; } }`
with `dis` over `[lo, hi]`. `none`: the supplied engine outputs ran out with the
loop still running. -/
def drawFresh (lo hi : Nat) (batch_index already_add : List Nat) :
    List Nat → Option Sampling
  | [] => none
  | r :: rng =>
    let index := uniformInt lo hi r
    if index ∈ already_add then drawFresh lo hi batch_index already_add rng
    else some { batch_index := batch_index ++ [index], already_add := index :: already_add,
                rng := rng }

/-- The loop `for(uint32_t i = 0; i < n; i++){ while(true){ ... } }`. -/
def drawLoop (lo hi : Nat) : Nat → Sampling → Option Sampling
  | 0, st => some st
  | n + 1, st =>
    match drawFresh lo hi st.batch_index st.already_add st.rng with
    | some st1 => drawLoop lo hi n st1
    | none => none

/-- The loop `for(auto size : each_size)`: the distribution is set to
`[prev_size, prev_size + size]`, `prev_size` advances by `size`, and
`size_each_sample` indices are drawn. Returns the final `prev_size`. -/
def classLoop (size_each_sample : Nat) : List Nat → Nat → Sampling → Option (Nat × Sampling)
  | [], prev_size, st => some (prev_size, st)
  | size :: rest, prev_size, st =>
    match drawLoop prev_size (add32 prev_size size) size_each_sample st with
    | some st1 => classLoop size_each_sample rest (add32 prev_size size) st1
    | none => none

/-- Exchange the elements at positions `i` and `j`. -/
def swapAt (xs : List Nat) (i j : Nat) : List Nat :=
  (xs.set i (xs.getD j 0)).set j (xs.getD i 0)

/-- The loop of `std::shuffle` (the exchange loop of libstdc++): for
`i, i + 1, ...` (`steps` positions) the element at `i` is exchanged with the
element at a position drawn from `[0, i]`; `r` is the next engine output. -/
def shuffleFrom : Nat → Nat → List Nat → List Nat → Option (List Nat × List Nat)
  | _, 0, xs, rng => some (xs, rng)
  | _, _ + 1, _, [] => none
  | i, steps + 1, xs, r :: rng => shuffleFrom (i + 1) steps (swapAt xs i (r % (i + 1))) rng

/-- The call `std::shuffle(&ptr[0], &ptr[n], rg)`: a random rearrangement of the
first `n` elements of `xs`. -/
def shuffle (xs : List Nat) (n : Nat) (rng : List Nat) : Option (List Nat × List Nat) :=
  shuffleFrom 1 (n - 1) xs rng

/-- The vector overload of `GetRandomSampleClassIndex<batch_size>`.
`rng` is the sequence of engine outputs. The result is the content of
`batch_index` when the function returns; `none` when it does not return a
batch: a draw loop is still running when `rng` is used up, or the call is
undefined (`batch_index.size() - 1` with an empty vector, remainder by a zero
class count). -/
def GetRandomSampleClassIndex (batch_size : Nat) (each_size : List Nat)
    (total_size_of_class : Nat) (rng : List Nat) : Option (List Nat) :=
  if total_size_of_class ≤ 20 then
    if total_size_of_class = 0 then none
    else
      let batch_index := List.range total_size_of_class
      (shuffle batch_index (batch_index.length - 1) rng).map Prod.fst
  else
    let total_class := each_size.length
    if total_class = 0 then none
    else
      let total_rest_data := batch_size % total_class
      let size_each_sample := (batch_size - total_rest_data) / total_class
      match classLoop size_each_sample each_size 0
          { batch_index := [], already_add := [], rng := rng } with
      | none => none
      | some (prev_size, st) =>
        (drawLoop 0 prev_size total_rest_data st).map Sampling.batch_index

/-- First index of class `i`: the sum of the counts before it. -/
def classOffset (each_size : List Nat) (i : Nat) : Nat := (each_size.take i).sum

/-- Number of entries of `batch` in the half-open range
`[offset_i, offset_i + c_i)` of class `i`. -/
def classCount (each_size : List Nat) (i : Nat) (batch : List Nat) : Nat :=
  (batch.filter (fun x => decide (classOffset each_size i ≤ x ∧
    x < classOffset each_size i + each_size.getD i 0))).length

/-- What the draw loops maintain: the output holds no index twice, and every
index of the output is recorded in `already_add`. -/
def Sampling.Distinct (st : Sampling) : Prop :=
  st.batch_index.Nodup ∧ ∀ x ∈ st.batch_index, x ∈ st.already_add

/-! ## Background loop (`Loader.h`, `Loaders`) -/

/-- The statement `each_class_sizes.back() -= 1`; `none` for an empty vector. -/
def decrementBack : List Nat → Option (List Nat)
  | [] => none
  | [size] => some [sub32 size 1]
  | size :: rest => (decrementBack rest).map (fun r => size :: r)

/-- The loop `for (auto &size : each_class_sizes) total_size_of_class += size`. -/
def totalSize (sizes : List Nat) : Nat := sizes.foldl add32 0

/-- The part of `Loaders()` before its `while` loop: the last class count is
decremented, the counts are summed, and a zero sum throws. The result is the
loader as the loop finds it, with `total_size_of_class`. -/
def LoadersStart (s : Loader) : Res (Loader × Nat) :=
  match decrementBack s.each_class_sizes with
  | none => Res.undefined
  | some sizes =>
    let total_size_of_class := totalSize sizes
    if total_size_of_class = 0 then
      Res.threw "Error LanternImageLoader, No image found in dataset"
    else Res.ok ({ s with each_class_sizes := sizes }, total_size_of_class)

/-! ## Sample values -/

/-- Two slots of two bytes each (one channel, 1 x 2 pixels). -/
def demoParams : Params :=
  { TOTAL_IMAGES := 2, IMG_WIDTH := 1, IMG_HEIGHT := 2, IsColor := false }

/-- A loader on which dataset `d` was created and selected. -/
def demoStart : Loader :=
  { Loader.init with active_dataset := "d", image_cache := [("d", [0, 0, 0, 0])] }

/-- Three images go through the two slots; the third one reuses slot 0. -/
def demoOps : List Op :=
  [Op.put "a/x" (some [1, 2]), Op.put "b/y" (some [3, 4]), Op.get,
    Op.put "c/z" (some [5, 6]), Op.get, Op.get]

/-- The loader after `Put("a/x")` stored `[1, 2]` in slot 0. -/
def demoFilled : Loader :=
  { each_class_sizes := [], image_paths := [], image_cache := [("d", [1, 2, 0, 0])],
    label_cache := [("d", ["a", ""])], active_dataset := "d", stop_thread := false,
    head := 0, tail := 1, count := 1 }

/-- The loader after `Put("a/x")` stored `[1, 2]` and `Stop()` was called. -/
def demoStopped : Loader := { demoFilled with stop_thread := true }

/-- Parent directory name of a path `dir/file` with a single separator: the
text before the `/`. -/
def demoParent (p : String) : String :=
  String.mk (p.data.takeWhile (fun c => c != '/'))

/-! ## Observations on a loader -/

/-- Pixel bytes of the cache of dataset `d` (empty when `d` has no cache). -/
def pixelsOf (s : Loader) (d : String) : Bytes :=
  (mapFind s.image_cache d).getD []

/-- The label array of dataset `d`: a `std::array<std::string, TOTAL_IMAGES>`,
default-constructed (empty strings) when `label_cache` has no entry for `d`. -/
def labelsOf (P : Params) (s : Loader) (d : String) : List String :=
  (mapFind s.label_cache d).getD (List.replicate P.TOTAL_IMAGES "")

/-- The label recorded at slot `i` of dataset `d`. -/
def labelOf (P : Params) (s : Loader) (d : String) (i : Nat) : String :=
  (labelsOf P s d).getD i ""

/-! ## Dataset registry (`Loader.h`) -/

/-- Member `extension_accepted`. -/
def extension_accepted : List String :=
  [".jpg", ".jpeg", ".png", ".bmp", ".tiff", ".webp"]

/-- The call `std::transform(ext.begin(), ext.end(), ext.begin(), tolower)`:
`std::tolower` in the default locale maps `A`..`Z` to `a`..`z` and leaves every
other character as it is. -/
def lowerExt (ext : String) : String := String.mk (ext.data.map Char.toLower)

/-- Method `IsImage(path)`. `extension` stands for
`std::filesystem::path::extension().string()`. -/
def IsImage (extension : String → String) (path : String) : Bool :=
  let ext := lowerExt (extension path)
  decide (ext ∈ extension_accepted)

/-- How a call of the registry ends: the loader when the call ends, and the
message of the `std::runtime_error` it threw, if it threw. -/
structure Done where
  state : Loader
  error : Option String
deriving Repr, DecidableEq

/-- Method `CreateDatasetForFolder(_dataset_name)`. The new cache is a buffer of
`allocation` bytes. -/
def CreateDatasetForFolder (P : Params) (s : Loader) (_dataset_name : String) : Done :=
  if mapContains s.image_cache _dataset_name = true then
    { state := s,
      error := some ("Error LanternImageLoader, Cannot create dataset \"" ++ _dataset_name
        ++ "\" because already exists") }
  else
    { state := { s with
        image_cache := mapSet s.image_cache _dataset_name (List.replicate P.allocation 0) },
      error := none }

/-- Method `SelectDatasetToModify(_dataset_name)`. -/
def SelectDatasetToModify (s : Loader) (_dataset_name : String) : Done :=
  if ¬ (mapContains s.image_cache _dataset_name = true) then
    { state := s,
      error := some ("Error LanternImageLoader, dataset \"" ++ _dataset_name
        ++ "\" do not exists") }
  else { state := { s with active_dataset := _dataset_name }, error := none }

/-- The loop over `std::filesystem::directory_iterator(_path)`: every entry that
`IsImage` accepts is appended to the path list and counted in `class_size`. -/
def folderLoop (extension : String → String) :
    List String → List String × Nat → List String × Nat
  | [], acc => acc
  | file :: rest, (image_paths, class_size) =>
    if IsImage extension file = true then
      folderLoop extension rest (image_paths ++ [file], add32 class_size 1)
    else folderLoop extension rest (image_paths, class_size)

/-- Method `GetImagesDataFromFolder(_path)`. `listing` is what the file system
holds at `_path`: `none` when `_path` does not exist or is not a directory,
otherwise the paths of its entries in iteration order. -/
def GetImagesDataFromFolder (extension : String → String) (s : Loader) (_path : String)
    (listing : Option (List String)) : Done :=
  if s.active_dataset = "" then
    { state := s, error := some "Error LanternImageLoader, No dataset selected" }
  else
    match listing with
    | some files =>
      let (image_paths, paths1) := mapIndex s.image_paths s.active_dataset []
      let (image_paths1, class_size) := folderLoop extension files (image_paths, 0)
      { state := { s with
          image_paths := mapSet paths1 s.active_dataset image_paths1
          each_class_sizes := s.each_class_sizes ++ [class_size] },
        error := none }
    | none =>
      { state := s,
        error := some ("Error ImageLoader, cannot access folder path \"" ++ _path
          ++ "\" looks like deleted or moved") }

/-- The path list of dataset `d` (empty when `d` has none). -/
def pathsOf (s : Loader) (d : String) : List String :=
  (mapFind s.image_paths d).getD []

/-- One call on the loader by its owner or by the background thread. -/
inductive Call where
  | create (name : String)
  | select (name : String)
  | addFolder (path : String) (listing : Option (List String))
  | put (image_path : String) (loaded : Option Bytes)
  | get
  | stop
deriving Repr, DecidableEq

/-- The outcome of one call; `none` when the call does not end (it waits on a
condition variable) or is undefined. -/
def perform (P : Params) (extension parent_dir : String → String) (s : Loader) :
    Call → Option Done
  | Call.create name => some (CreateDatasetForFolder P s name)
  | Call.select name => some (SelectDatasetToModify s name)
  | Call.addFolder path listing => some (GetImagesDataFromFolder extension s path listing)
  | Call.put image_path loaded =>
    match Put P parent_dir s image_path loaded with
    | Res.ok s1 => some { state := s1, error := none }
    | Res.threw what => some { state := s, error := some what }
    | _ => none
  | Call.get =>
    match Get P s with
    | Res.ok (_, s1) => some { state := s1, error := none }
    | Res.threw what => some { state := s, error := some what }
    | _ => none
  | Call.stop => some { state := Stop s, error := none }

/-- The names a successful `CreateDatasetForFolder` call adds to the record of
registered names. -/
def registers (c : Call) (d : Done) : List String :=
  match c, d.error with
  | Call.create name, none => [name]
  | _, _ => []

/-- The loader after a sequence of calls, each of which ends (normally or by an
exception that the caller catches), with the names registered by the
successful `CreateDatasetForFolder` calls of the sequence, in call order. -/
def history (P : Params) (extension parent_dir : String → String) :
    Loader → List Call → Option (Loader × List String)
  | s, [] => some (s, [])
  | s, c :: rest =>
    match perform P extension parent_dir s c with
    | some d =>
      (history P extension parent_dir d.state rest).map
        (fun r => (r.1, registers c d ++ r.2))
    | none => none

/-- Extension of a path with a dot in its last component: the text from the
last `.` on; empty when the path has no dot. -/
def demoExtension (p : String) : String :=
  if '.' ∈ p.data then
    String.mk ('.' :: (p.data.reverse.takeWhile (fun c => c != '.')).reverse)
  else ""

/-- Two datasets, each with one folder: two images in `cats`, three in
`dogs` (and a text file that is not counted). -/
def demoTwoDatasets : List Call :=
  [Call.create "a", Call.select "a",
   Call.addFolder "cats" (some ["cats/1.jpg", "cats/2.PNG"]),
   Call.create "b", Call.select "b",
   Call.addFolder "dogs" (some ["dogs/1.jpg", "dogs/notes.txt", "dogs/2.jpeg", "dogs/3.bmp"])]

/-- The registry as a history of calls leaves it: the datasets with a pixel
cache are exactly the names in `created`, and a dataset is active as soon as
the ring holds an image. -/
def Registered (s : Loader) (created : List String) : Prop :=
  (∀ n, mapContains s.image_cache n = true ↔ n ∈ created) ∧
  ((s.active_dataset = "" ∧ s.count = 0) ∨ mapContains s.image_cache s.active_dataset = true)

/-- The loader after the calls of `demoTwoDatasets`. -/
def demoTwoLoaded : Loader :=
  { each_class_sizes := [2, 3],
    image_paths := [("a", ["cats/1.jpg", "cats/2.PNG"]),
                    ("b", ["dogs/1.jpg", "dogs/2.jpeg", "dogs/3.bmp"])],
    image_cache := [("a", [0, 0, 0, 0]), ("b", [0, 0, 0, 0])],
    label_cache := [], active_dataset := "b", stop_thread := false,
    head := 0, tail := 0, count := 0 }

/-- Two characters that are equal when the case of letters is ignored. -/
def sameLetter (c d : Char) : Prop := c.toLower = d.toLower

/-- Case-insensitive comparison of two strings, as the specification words it:
the strings have the same length and agree character by character when the
case of letters is ignored. -/
def sameIgnoringCase (a b : String) : Prop := List.Forall₂ sameLetter a.data b.data

/-- The character `d` is `c` with its case kept or changed. -/
def caseVariant (c d : Char) : Prop := d = c ∨ d = c.toUpper ∨ d = c.toLower

/-! ## CSV label table (`File.h`) -/

/-- The loop `while (std::getline(stream, token, delim))`: the tokens it reads
from the characters left in the stream. `token` holds the characters of the
token being read. A token ends at `delim` or at the end of the stream; at the
end of the stream a token with no character is not read. -/
def getlineLoop (delim : Char) : List Char → List Char → List String
  | [], token => if token = [] then [] else [String.mk token]
  | c :: rest, token =>
    if c = delim then String.mk token :: getlineLoop delim rest []
    else getlineLoop delim rest (token ++ [c])

/-- All tokens of `text` separated by `delim`, as `std::getline` reads them. -/
def getlines (delim : Char) (text : String) : List String :=
  getlineLoop delim text.data []

/-- What the file system holds at the path given to `ReadCSVFile`. -/
structure FileStatus where
  /-- `std::filesystem::exists(_path)` -/
  present : Bool
  /-- `std::filesystem::is_regular_file(_path)` -/
  regular : Bool
  /-- `_path.extension().string()` -/
  extension : String
  /-- `file.is_open()` -/
  opens : Bool
  /-- the characters of the file -/
  content : String
deriving Repr, DecidableEq

/-- The loop `while (std::getline(file, line))` of `ReadCSVFile` over the lines
left in the file: a row is appended, filled with the comma-separated tokens of
the line, and compared in size with the first row. -/
def csvLoop (_path : String) : List String → List (List String) → Res (List (List String))
  | [], data => Res.ok data
  | line :: rest, data =>
    let data1 := data ++ [getlines ',' line]
    match data1.head?, data1.getLast? with
    | some front, some back =>
      if front.length ≠ back.length then
        Res.threw ("Error ReadCSVFile, the file \"" ++ _path ++ "\" has different columns sizes")
      else csvLoop _path rest data1
    | _, _ => csvLoop _path rest data1

/-- Function `ReadCSVFile(_path)`; the result is the member `data` of the
`CSVFile` it returns. -/
def ReadCSVFile (_path : String) (f : FileStatus) : Res (List (List String)) :=
  if ¬ (f.present = true) then
    Res.threw ("Error CSVReader, cannot access file path \"" ++ _path
      ++ "\" looks like deleted or moved")
  else if f.regular = true then
    let ext := lowerExt f.extension
    if ext = ".csv" then
      if ¬ (f.opens = true) then
        Res.threw ("Error CSVReader, failed to open file \"" ++ ext ++ "\"")
      else csvLoop _path (getlines '\n' f.content) []
    else
      Res.threw ("Error CSVReader, the file extension \"" ++ ext ++ "\" is not json file")
  else
    Res.threw ("Error CSVReader, the path \"" ++ _path ++ "\" is not file path")

/-- The `std::transform` of `CSVFile::Col`: entry `_index` of every row,
converted. A row without entry `_index` makes the read undefined. -/
def colLoop {T : Type} (conv : String → Except String T) (_index : Nat) :
    List (List String) → Res (List T)
  | [] => Res.ok []
  | row :: rest =>
    match row[_index]? with
    | none => Res.undefined
    | some str =>
      match conv str with
      | Except.error what => Res.threw what
      | Except.ok v =>
        match colLoop conv _index rest with
        | Res.ok vs => Res.ok (v :: vs)
        | other => other

/-- Method `CSVFile::Col<T>(_index)` on the table `data`. `conv` stands for
`ConvertFromString<T>`, which returns the value or throws. `data.front()` of an
empty table is undefined. -/
def Col {T : Type} (conv : String → Except String T) (data : List (List String))
    (_index : Nat) : Res (List T) :=
  match data with
  | [] => Res.undefined
  | front :: _ =>
    if _index ≥ front.length then
      Res.threw ("Error CSVFile, cannot access column index \"" ++ toString _index
        ++ "\" out of bound")
    else colLoop conv _index data

/-- A label file of three lines with two columns each. -/
def demoCsv : FileStatus :=
  { present := true, regular := true, extension := ".CSV", opens := true,
    content := "cat,0\ndog,1\nbird,2\n" }

/-- A label file whose second line has three columns. -/
def demoCsvRagged : FileStatus :=
  { present := true, regular := true, extension := ".csv", opens := true,
    content := "cat,0\ndog,1,x\nbird,2\n" }

/-- One dataset `d` with two folders: two images in `cats`, three in `dogs`. -/
def demoOneDataset : List Call :=
  [Call.create "d", Call.select "d",
   Call.addFolder "cats" (some ["cats/1.jpg", "cats/2.PNG"]),
   Call.addFolder "dogs" (some ["dogs/1.jpg", "dogs/notes.txt", "dogs/2.jpeg", "dogs/3.bmp"])]

/-- The loader after the calls of `demoOneDataset`. -/
def demoOneLoaded : Loader :=
  { each_class_sizes := [2, 3],
    image_paths := [("d", ["cats/1.jpg", "cats/2.PNG", "dogs/1.jpg", "dogs/2.jpeg",
      "dogs/3.bmp"])],
    image_cache := [("d", [0, 0, 0, 0])],
    label_cache := [], active_dataset := "d", stop_thread := false,
    head := 0, tail := 0, count := 0 }

/-! ## Labelled get (`Loader.h`, `GetAsAF`) -/

/-- Where the consumer thread stands inside a call of `GetAsAF(img, label)`,
with its local values. Only `Get()` runs under the mutex; the statements of
`GetAsAF` after it run without the mutex, so a call of the producer thread can
run between them. -/
inductive Consumer where
  /-- not inside `GetAsAF` -/
  | idle
  /-- `Get()` has returned the pointer `ptr` (`none` for `nullptr`) -/
  | got (ptr : Option Nat)
  /-- `flat` has been constructed and holds these bytes -/
  | copied (bytes : Bytes)
deriving Repr, DecidableEq

/-- The first statements of `GetAsAF(img, label)`: `CheckDatasetValid()`, then
the call `Get()` that gives the pointer argument of the constructor of `flat`. -/
def GetAsAF_Get (P : Params) (s : Loader) : Res (Option Nat × Loader) :=
  if s.active_dataset = "" then
    Res.threw "Error LanternImageLoader, No dataset selected"
  else Get P s

/-- The statement `af::array flat(IMG_HEIGHT * IMG_WIDTH * 3, ptr)` of
`GetAsAF`: the constructor copies `IMG_HEIGHT * IMG_WIDTH * 3` bytes from the
pointer `Get` returned, whatever `IsColor` is; the count is a `uint32_t`
product. A null pointer and a read that leaves the pixel cache are undefined.
The ArrayFire library is outside the repository; `img` is computed from `flat`
alone (rearranged and scaled), so the bytes of `flat` stand for it. -/
def GetAsAF_flat (P : Params) (s : Loader) : Option Nat → Res Bytes
  | none => Res.undefined
  | some off =>
    let n := mul32 (mul32 P.IMG_HEIGHT P.IMG_WIDTH) 3
    let image_data := (mapFind s.image_cache s.active_dataset).getD []
    if off + n ≤ image_data.length then Res.ok (readAt image_data off n)
    else Res.undefined

/-- The last statements of `GetAsAF(img, label)`:
`auto& label_data = this->label_cache[this->active_dataset]` and
`label = label_data.at(this->head > 0 ? this->head - 1 : TOTAL_IMAGES - 1)`,
with the value `head` has when they run; `at` throws `std::out_of_range`
outside the array. -/
def GetAsAF_label (P : Params) (s : Loader) : Res (String × Loader) :=
  let (label_data, labels1) :=
    mapIndex s.label_cache s.active_dataset (List.replicate P.TOTAL_IMAGES "")
  let i := if s.head > 0 then sub32 s.head 1 else sub32 P.TOTAL_IMAGES 1
  match label_data[i]? with
  | some label => Res.ok (label, { s with label_cache := labels1 })
  | none => Res.threw "array::at"

/-- One step of a run of the two threads: a whole call of `Put` by the producer
(`Put` holds the mutex from its first statement to its last), or the next part
of the consumer's call of `GetAsAF(img, label)`: up to the return of `Get`
(`get`), the construction of `flat` (`flat`), the label read (`label`). -/
inductive LOp where
  | put (image_path : String) (loaded : Option Bytes)
  | get
  | flat
  | label
deriving Repr, DecidableEq

/-- The image and the label a returning `Put` stores: nothing when it saw the
stop flag or when the decoder failed. -/
def writtenL (parent_dir : String → String) (s : Loader) (image_path : String)
    (loaded : Option Bytes) : List (Bytes × String) :=
  if s.stop_thread = true then []
  else (loaded.toList).map (fun pixels => (pixels, parent_dir image_path))

/-- Observable history of a run of the two threads in which every step
returns: the images and labels stored by the successful `Put` calls, in call
order, and for each `GetAsAF` call that returned the bytes of its `flat`, with
the label it returned. `none` when a step does not return or when the
consumer's steps are out of order. -/
def traceL (P : Params) (parent_dir : String → String) :
    Loader → Consumer → List LOp → Option (List (Bytes × String) × List (Bytes × String))
  | _, _, [] => some ([], [])
  | s, c, LOp.put image_path loaded :: ops =>
    match Put P parent_dir s image_path loaded with
    | Res.ok s1 =>
      (traceL P parent_dir s1 c ops).map
        (fun t => (writtenL parent_dir s image_path loaded ++ t.1, t.2))
    | _ => none
  | s, Consumer.idle, LOp.get :: ops =>
    match GetAsAF_Get P s with
    | Res.ok (ptr, s1) => traceL P parent_dir s1 (Consumer.got ptr) ops
    | _ => none
  | s, Consumer.got ptr, LOp.flat :: ops =>
    match GetAsAF_flat P s ptr with
    | Res.ok bytes => traceL P parent_dir s (Consumer.copied bytes) ops
    | _ => none
  | s, Consumer.copied bytes, LOp.label :: ops =>
    match GetAsAF_label P s with
    | Res.ok (label, s1) =>
      (traceL P parent_dir s1 Consumer.idle ops).map (fun t => (t.1, (bytes, label) :: t.2))
    | _ => none
  | _, _, _ => none

/-- One whole call: `Put` by the producer, `GetAsAF(img, label)` by the
consumer. -/
inductive LCall where
  | put (image_path : String) (loaded : Option Bytes)
  | getLabelled
deriving Repr, DecidableEq

/-- The run in which the calls follow one another: no `Put` runs between the
first and the last statement of a `GetAsAF` call. -/
def sequential : List LCall → List LOp
  | [] => []
  | LCall.put image_path loaded :: calls => LOp.put image_path loaded :: sequential calls
  | LCall.getLabelled :: calls => LOp.get :: LOp.flat :: LOp.label :: sequential calls

/-- Every decoded image of the call sequence has the size of one slot. -/
def slotSizedL (P : Params) (calls : List LCall) : Prop :=
  ∀ image_path pixels, LCall.put image_path (some pixels) ∈ calls →
    pixels.length = P.slotBytes

/-- The labels stored and not yet drained are `pending`, oldest first: they
occupy the `count` slots from `head` on of the active dataset's label array,
which has `TOTAL_IMAGES` entries. -/
def LabelInv (P : Params) (s : Loader) (pending : List String) : Prop :=
  (labelsOf P s s.active_dataset).length = P.TOTAL_IMAGES ∧
  ∀ i, i < s.count →
    pending[i]? = some (labelOf P s s.active_dataset ((s.head + i) % P.TOTAL_IMAGES))

/-- Two slots of three bytes each (three channels, 1 x 1 pixel). -/
def demoColorParams : Params :=
  { TOTAL_IMAGES := 2, IMG_WIDTH := 1, IMG_HEIGHT := 1, IsColor := true }

/-- A loader for `demoColorParams` on which dataset `d` was created and
selected. -/
def demoColorStart : Loader :=
  { Loader.init with active_dataset := "d", image_cache := [("d", [0, 0, 0, 0, 0, 0])] }

/-- Three images with their folders go through the two slots, one call after
the other. -/
def demoLCalls : List LCall :=
  [LCall.put "a/x" (some [1, 2, 3]), LCall.put "b/y" (some [4, 5, 6]), LCall.getLabelled,
    LCall.put "c/z" (some [7, 8, 9]), LCall.getLabelled, LCall.getLabelled]

/-- The ring is full when the consumer calls `GetAsAF`; after `Get` returned
and `flat` was built, the producer's `Put("c/z")` runs, and only then does the
consumer read the label. -/
def demoRace : List LOp :=
  [LOp.put "a/x" (some [1, 2, 3]), LOp.put "b/y" (some [4, 5, 6]), LOp.get, LOp.flat,
    LOp.put "c/z" (some [7, 8, 9]), LOp.label]

/-- With one channel: `Put("a/x")` stores the two bytes of slot 0, then the
consumer calls `GetAsAF`. -/
def demoGray : List LOp :=
  [LOp.put "a/x" (some [1, 2]), LOp.get, LOp.flat, LOp.label]

/-- The loader `demoFilled` after `Get` drained slot 0. -/
def demoDrained : Loader :=
  { each_class_sizes := [], image_paths := [], image_cache := [("d", [1, 2, 0, 0])],
    label_cache := [("d", ["a", ""])], active_dataset := "d", stop_thread := false,
    head := 1, tail := 1, count := 0 }

/-- The instantiation `LanternImageLoader<1024, 2048, 2048, true>`: 1024 slots
of 2048 x 2048 pixels with three channels. -/
def demoLargeParams : Params :=
  { TOTAL_IMAGES := 1024, IMG_WIDTH := 2048, IMG_HEIGHT := 2048, IsColor := true }

/-- The sampler state with further engine outputs `ext` behind the ones not yet
consumed. -/
def Sampling.more (st : Sampling) (ext : List Nat) : Sampling :=
  { st with rng := st.rng ++ ext }

/-- The indices of `pool` are different values of the draw range `[lo, hi]`
that are not in `already_add`: indices the draw-and-reject loop over `[lo, hi]`
can still choose. -/
def FreePool (lo hi : Nat) (already_add pool : List Nat) : Prop :=
  pool.Nodup ∧ ∀ x ∈ pool, x ∉ already_add ∧ ∃ k, k ≤ sub32 hi lo ∧ x = add32 lo k

/-- The comma-split fields of a line, in the words of the specification: the
pieces of the line between its commas, one more than there are commas. -/
def commaSplit (line : String) : List String :=
  (line.data.splitOn ',').map String.mk

/-- The pieces without a last piece that is empty. -/
def dropEmptyLast (fields : List String) : List String :=
  if fields.getLast? = some "" then fields.dropLast else fields

/-- The lines of a text: the pieces of the text between its newline characters,
without a last piece that is empty (a newline at the end of the text ends the
last line and begins no other). -/
def textLines (content : String) : List String :=
  dropEmptyLast ((content.data.splitOn '\n').map String.mk)

/-- The column count of a line when a last comma-split field that is empty is
not counted: the comma-split count, less one when the line is empty or ends in
a comma. -/
def columnCount (line : String) : Nat := (dropEmptyLast (commaSplit line)).length

/-- A label file whose second line ends in a comma. -/
def demoCsvTrailing : FileStatus :=
  { present := true, regular := true, extension := ".csv", opens := true,
    content := "a,b\nc,d," }

/-! # Theorems -/

/-! ## Arithmetic helpers -/

theorem mod_two_range (a n : Nat) (h : a < 2 * n) :
    a % n = if a < n then a else a - n := by
  split
  · next h1 => exact Nat.mod_eq_of_lt h1
  · next h1 =>
    have h2 : n ≤ a := Nat.le_of_not_lt h1
    rw [Nat.mod_eq_sub_mod h2]
    exact Nat.mod_eq_of_lt (by omega)

theorem add32_one_of_lt (a cap : Nat) (ha : a < cap) (hcap : cap < 2 ^ 32) :
    add32 a 1 = a + 1 := by
  unfold add32
  exact Nat.mod_eq_of_lt (by omega)

theorem sub32_one_of_pos (a cap : Nat) (ha : 0 < a) (hle : a ≤ cap) (hcap : cap < 2 ^ 32) :
    sub32 a 1 = a - 1 := by
  unfold sub32
  have h1 : (1 : Nat) % 2 ^ 32 = 1 := by norm_num
  rw [h1]
  have h2 : a + 2 ^ 32 - 1 = (a - 1) + 2 ^ 32 := by omega
  rw [h2, Nat.add_mod_right]
  exact Nat.mod_eq_of_lt (by omega)

/-! ## Ring invariant -/

theorem ringCore_put (P : Params) (pd : String → String) (s s1 : Loader) (path : String)
    (loaded : Option Bytes) (hcap : P.TOTAL_IMAGES < 2 ^ 32)
    (hinv : RingCore P.TOTAL_IMAGES s) (h : Put P pd s path loaded = Res.ok s1) :
    RingCore P.TOTAL_IMAGES s1 := by
  obtain ⟨hh, hc, ht⟩ := hinv
  unfold Put at h
  split at h
  · cases h
  · next hw =>
    split at h
    · cases h; exact ⟨hh, hc, ht⟩
    · next hstop =>
      split at h
      · cases h
      · cases loaded with
        | none => simp only [Res.ok.injEq] at h; subst h; exact ⟨hh, hc, ht⟩
        | some pixels =>
          simp only at h
          split at h
          · simp only [Res.ok.injEq] at h
            subst h
            have hlt : s.count < P.TOTAL_IMAGES := by
              rcases (not_not.mp hw) with h1 | h1
              · exact h1
              · exact absurd h1 hstop
            have htl : s.tail < P.TOTAL_IMAGES := by
              rw [ht]; exact Nat.mod_lt _ (by omega)
            refine ⟨hh, ?_, ?_⟩
            · show add32 s.count 1 ≤ P.TOTAL_IMAGES
              rw [add32_one_of_lt _ _ hlt hcap]; omega
            · show add32 s.tail 1 % P.TOTAL_IMAGES = (s.head + add32 s.count 1) % P.TOTAL_IMAGES
              rw [add32_one_of_lt _ _ hlt hcap, add32_one_of_lt _ _ htl hcap, ht,
                Nat.mod_add_mod, Nat.add_assoc]
          · cases h

theorem ringCore_get (P : Params) (s s1 : Loader) (r : Option Nat)
    (hcap : P.TOTAL_IMAGES < 2 ^ 32)
    (hinv : RingCore P.TOTAL_IMAGES s) (h : Get P s = Res.ok (r, s1)) :
    RingCore P.TOTAL_IMAGES s1 := by
  obtain ⟨hh, hc, ht⟩ := hinv
  unfold Get at h
  split at h
  · cases h
  · split at h
    · simp only [Res.ok.injEq, Prod.mk.injEq] at h
      obtain ⟨_, h2⟩ := h
      subst h2; exact ⟨hh, hc, ht⟩
    · next hns =>
      simp only [Res.ok.injEq, Prod.mk.injEq] at h
      obtain ⟨_, h2⟩ := h
      subst h2
      have hpos : 0 < s.count := by
        rcases Nat.eq_zero_or_pos s.count with h0 | h0
        · exact absurd (Or.inr h0) hns
        · exact h0
      refine ⟨?_, ?_, ?_⟩
      · show add32 s.head 1 % P.TOTAL_IMAGES < P.TOTAL_IMAGES
        exact Nat.mod_lt _ (by omega)
      · show sub32 s.count 1 ≤ P.TOTAL_IMAGES
        rw [sub32_one_of_pos _ _ hpos hc hcap]; omega
      · show s.tail = (add32 s.head 1 % P.TOTAL_IMAGES + sub32 s.count 1) % P.TOTAL_IMAGES
        rw [sub32_one_of_pos _ _ hpos hc hcap, add32_one_of_lt _ _ hh hcap, ht,
          Nat.mod_add_mod]
        congr 1; omega

theorem ringCore_step (P : Params) (pd : String → String) (s s1 : Loader) (op : Op)
    (hcap : P.TOTAL_IMAGES < 2 ^ 32)
    (hinv : RingCore P.TOTAL_IMAGES s) (h : step P pd s op = some s1) :
    RingCore P.TOTAL_IMAGES s1 := by
  cases op with
  | put path loaded =>
    simp only [step] at h
    split at h
    · next s2 heq =>
      cases h
      exact ringCore_put P pd s _ path loaded hcap hinv heq
    · cases h
  | get =>
    simp only [step] at h
    split at h
    · next r s2 heq =>
      cases h
      exact ringCore_get P s _ r hcap hinv heq
    · cases h
  | stop =>
    simp only [step, Option.some.injEq] at h
    subst h
    exact hinv

theorem ringCore_run (P : Params) (pd : String → String) (ops : List Op) :
    ∀ (s s1 : Loader), P.TOTAL_IMAGES < 2 ^ 32 → RingCore P.TOTAL_IMAGES s →
      run P pd s ops = some s1 → RingCore P.TOTAL_IMAGES s1 := by
  induction ops with
  | nil =>
    intro s s1 _ hinv h
    simp only [run, Option.some.injEq] at h
    subst h; exact hinv
  | cons op ops ih =>
    intro s s1 hcap hinv h
    simp only [run] at h
    split at h
    · next s2 heq => exact ih s2 s1 hcap (ringCore_step P pd s s2 op hcap hinv heq) h
    · cases h

theorem ringInv_of_core (cap : Nat) (s : Loader) (hcap : 1 ≤ cap) (h : RingCore cap s) :
    RingInv cap s := by
  obtain ⟨hh, hc, ht⟩ := h
  have h2 : s.head + s.count < 2 * cap := by omega
  have hmod := mod_two_range (s.head + s.count) cap h2
  refine ⟨hh, ?_, hc, ?_, ?_⟩
  · rw [ht]; exact Nat.mod_lt _ (by omega)
  · rintro ⟨h0, hne⟩
    rw [ht, hmod]
    split
    · next hlt =>
      have e : ((s.head + s.count : Nat) : Int) - (s.head : Int) = (s.count : Int) := by
        push_cast; ring
      rw [e]
      exact (Int.emod_eq_of_lt (by omega) (by omega)).symm
    · next hge =>
      have e : ((s.head + s.count - cap : Nat) : Int) - (s.head : Int)
          = (s.count : Int) + (-1) * (cap : Int) := by
        have : cap ≤ s.head + s.count := by omega
        push_cast [Nat.cast_sub this]; ring
      rw [e, Int.add_mul_emod_self]
      exact (Int.emod_eq_of_lt (by omega) (by omega)).symm
  · intro h0
    rw [ht, hmod]
    rcases h0 with h0 | h0
    · rw [h0]; simp [hh]
    · rw [h0]; simp

/-- C1. From a state with `head = tail = count = 0`, after every finite sequence
of `Put` calls (successful, decode-failed or stopped), `Get` calls and `Stop`,
the state satisfies `head < capacity`, `tail < capacity`, `count ≤ capacity`,
`count = (tail - head) mod capacity` when `count` is neither `0` nor the
capacity, and `head = tail` when `count` is `0` or the capacity. -/
theorem ring_invariant (P : Params) (pd : String → String) (s0 s : Loader) (ops : List Op)
    (hcap1 : 1 ≤ P.TOTAL_IMAGES) (hcap : P.TOTAL_IMAGES < 2 ^ 32)
    (hhead : s0.head = 0) (htail : s0.tail = 0) (hcount : s0.count = 0)
    (hrun : run P pd s0 ops = some s) :
    RingInv P.TOTAL_IMAGES s := by
  apply ringInv_of_core _ _ hcap1
  apply ringCore_run P pd ops s0 s hcap _ hrun
  refine ⟨by omega, by omega, ?_⟩
  rw [hhead, htail, hcount]
  simp


/-- C1, at a concrete run: three images through a ring of two slots. -/
theorem ring_invariant_witness :
    run demoParams demoParent demoStart demoOps
      = some { demoStart with
          image_cache := [("d", [5, 6, 3, 4])], label_cache := [("d", ["c", "b"])],
          head := 1, tail := 1, count := 0 } ∧
    RingInv 2 { demoStart with
          image_cache := [("d", [5, 6, 3, 4])], label_cache := [("d", ["c", "b"])],
          head := 1, tail := 1, count := 0 } :=
  ⟨by decide,
   ring_invariant demoParams demoParent demoStart _ demoOps (by decide) (by decide)
     rfl rfl rfl (by decide)⟩

/-! ## Maps and buffers -/

theorem mapFind_mapSet_same {α : Type} (m : List (String × α)) (k : String) (v : α) :
    mapFind (mapSet m k v) k = some v := by
  induction m with
  | nil => simp [mapSet, mapFind]
  | cons kv rest ih =>
    obtain ⟨k1, v1⟩ := kv
    by_cases h : k1 = k
    · simp [mapSet, mapFind, h]
    · simp [mapSet, mapFind, h, ih]

theorem mapIndex_fst {α : Type} (m : List (String × α)) (k : String) (d : α) :
    (mapIndex m k d).1 = (mapFind m k).getD d := by
  unfold mapIndex
  cases h : mapFind m k <;> simp

theorem mapFind_mapIndex {α : Type} (m : List (String × α)) (k : String) (d : α) :
    mapFind (mapIndex m k d).2 k = some ((mapFind m k).getD d) := by
  unfold mapIndex
  cases h : mapFind m k with
  | none => simp [mapFind_mapSet_same]
  | some v => simp [h]

theorem readAt_writeAt_same (buf : Bytes) (off : Nat) (src : Bytes)
    (h : off + src.length ≤ buf.length) :
    readAt (writeAt buf off src) off src.length = src := by
  unfold readAt writeAt
  have h1 : (buf.take off).length = off := by
    rw [List.length_take]; omega
  rw [List.append_assoc, List.drop_append_of_le_length (by omega), List.drop_of_length_le (by omega)]
  simp

theorem getElem?_readAt (buf : Bytes) (off n i : Nat) :
    (readAt buf off n)[i]? = if i < n then buf[off + i]? else none := by
  unfold readAt
  rw [List.getElem?_take]
  split
  · rw [List.getElem?_drop]
  · rfl

theorem getElem?_writeAt_lt (buf : Bytes) (off : Nat) (src : Bytes) (i : Nat)
    (h : off + src.length ≤ buf.length) (hi : i < off) :
    (writeAt buf off src)[i]? = buf[i]? := by
  unfold writeAt
  have h1 : (buf.take off).length = off := by
    rw [List.length_take]; omega
  rw [List.append_assoc, List.getElem?_append_left (by omega), List.getElem?_take]
  simp [hi]

theorem getElem?_writeAt_ge (buf : Bytes) (off : Nat) (src : Bytes) (i : Nat)
    (h : off + src.length ≤ buf.length) (hi : off + src.length ≤ i) :
    (writeAt buf off src)[i]? = buf[i]? := by
  unfold writeAt
  have h1 : (buf.take off ++ src).length = off + src.length := by
    rw [List.length_append, List.length_take]; omega
  rw [List.getElem?_append_right (by omega), h1, List.getElem?_drop]
  congr 1; omega

theorem readAt_writeAt_disjoint (buf : Bytes) (off : Nat) (src : Bytes) (off2 n : Nat)
    (h : off + src.length ≤ buf.length)
    (hd : off2 + n ≤ off ∨ off + src.length ≤ off2) :
    readAt (writeAt buf off src) off2 n = readAt buf off2 n := by
  apply List.ext_getElem?
  intro i
  rw [getElem?_readAt, getElem?_readAt]
  split
  · next hi =>
    rcases hd with hd | hd
    · exact getElem?_writeAt_lt buf off src _ h (by omega)
    · exact getElem?_writeAt_ge buf off src _ h (by omega)
  · rfl


theorem mul32_chain (a b c d : Nat) :
    mul32 (mul32 (mul32 a b) c) d = (a * b * c * d) % 2 ^ 32 := by
  unfold mul32
  rw [Nat.mod_mul_mod, Nat.mul_assoc (a * b % 2 ^ 32), Nat.mod_mul_mod, ← Nat.mul_assoc]

theorem slotOffset_exact (P : Params) (i : Nat) (hi : i < P.TOTAL_IMAGES)
    (hfit : P.TOTAL_IMAGES * P.slotBytes < 2 ^ 32) :
    P.slotOffset i = i * P.slotBytes := by
  unfold Params.slotOffset
  rw [mul32_chain]
  have e : i * P.IMG_WIDTH * P.IMG_HEIGHT * P.channels = i * P.slotBytes := by
    unfold Params.slotBytes; ring
  rw [e]
  apply Nat.mod_eq_of_lt
  have : i * P.slotBytes ≤ P.TOTAL_IMAGES * P.slotBytes :=
    Nat.mul_le_mul_right _ (Nat.le_of_lt hi)
  omega

/-- The cache of the active dataset, as `Put` and `Get` see it. -/
theorem viewAt_eq (P : Params) (s : Loader) (off : Nat) :
    viewAt P s off = readAt ((mapFind s.image_cache s.active_dataset).getD []) off P.slotBytes :=
  rfl

/-- What a `Put` that returns does when the stop flag is clear and the decoder
succeeds. -/
theorem Put_some_ok (P : Params) (pd : String → String) (s s1 : Loader) (path : String)
    (pixels : Bytes) (hstop : s.stop_thread = false)
    (h : Put P pd s path (some pixels) = Res.ok s1) :
    s.count < P.TOTAL_IMAGES ∧
    P.slotOffset s.tail + pixels.length
      ≤ ((mapFind s.image_cache s.active_dataset).getD []).length ∧
    s1.active_dataset = s.active_dataset ∧ s1.stop_thread = false ∧
    s1.head = s.head ∧ s1.tail = add32 s.tail 1 % P.TOTAL_IMAGES ∧
    s1.count = add32 s.count 1 ∧
    mapFind s1.image_cache s1.active_dataset
      = some (writeAt ((mapFind s.image_cache s.active_dataset).getD [])
          (P.slotOffset s.tail) pixels) := by
  unfold Put at h
  simp only [hstop, Bool.false_eq_true, or_false, not_lt, if_false] at h
  split at h
  · cases h
  · next hc =>
    split at h
    · cases h
    · rw [mapIndex_fst] at h
      split at h
      · next hb =>
        simp only [Res.ok.injEq] at h
        subst h
        refine ⟨by omega, hb, rfl, rfl, rfl, rfl, rfl, ?_⟩
        exact mapFind_mapSet_same _ _ _
      · cases h

/-- What a `Put` that returns does when the stop flag is clear and the decoder
fails. -/
theorem Put_none_ok (P : Params) (pd : String → String) (s s1 : Loader) (path : String)
    (hstop : s.stop_thread = false)
    (h : Put P pd s path none = Res.ok s1) :
    s1.active_dataset = s.active_dataset ∧ s1.stop_thread = false ∧
    s1.head = s.head ∧ s1.tail = s.tail ∧ s1.count = s.count ∧
    (mapFind s1.image_cache s1.active_dataset).getD []
      = (mapFind s.image_cache s.active_dataset).getD [] := by
  unfold Put at h
  simp only [hstop, Bool.false_eq_true, or_false, not_lt, if_false] at h
  split at h
  · cases h
  · split at h
    · cases h
    · simp only [Res.ok.injEq] at h
      subst h
      refine ⟨rfl, rfl, rfl, rfl, rfl, ?_⟩
      simp [mapFind_mapIndex]

/-- What a `Get` that returns does when the stop flag is clear. -/
theorem Get_ok (P : Params) (s s1 : Loader) (ptr : Option Nat)
    (hstop : s.stop_thread = false) (h : Get P s = Res.ok (ptr, s1)) :
    0 < s.count ∧ ptr = some (P.slotOffset s.head) ∧
    s1.active_dataset = s.active_dataset ∧ s1.stop_thread = false ∧
    s1.head = add32 s.head 1 % P.TOTAL_IMAGES ∧ s1.tail = s.tail ∧
    s1.count = sub32 s.count 1 ∧
    (mapFind s1.image_cache s1.active_dataset).getD []
      = (mapFind s.image_cache s.active_dataset).getD [] := by
  unfold Get at h
  simp only [hstop, Bool.false_eq_true, or_false, false_or] at h
  split at h
  · cases h
  · next hc =>
    split at h
    · next h0 => omega
    · simp only [Res.ok.injEq, Prod.mk.injEq] at h
      obtain ⟨h1, h2⟩ := h
      subst h2
      refine ⟨by omega, h1.symm, rfl, rfl, rfl, rfl, rfl, ?_⟩
      simp [mapFind_mapIndex]

/-! ## First in, first out -/

theorem fifo_put_none (P : Params) (pd : String → String) (s s1 : Loader) (path : String)
    (pending : List Bytes) (hinv : FifoInv P s pending)
    (h : Put P pd s path none = Res.ok s1) : FifoInv P s1 pending := by
  obtain ⟨hcore, hstop, hlen, hslots⟩ := hinv
  obtain ⟨ha, hs, hh, ht, hc, hbuf⟩ := Put_none_ok P pd s s1 path hstop h
  refine ⟨?_, hs, by rw [hc]; exact hlen, ?_⟩
  · unfold RingCore; rw [hh, ht, hc]; exact hcore
  · intro i hi
    rw [hc] at hi
    rw [viewAt_eq, hbuf, hh]
    exact hslots i hi

theorem fifo_put_some (P : Params) (pd : String → String) (s s1 : Loader) (path : String)
    (pixels : Bytes) (pending : List Bytes)
    (hcap : P.TOTAL_IMAGES < 2 ^ 32) (hoff : P.slotOffset s.tail = s.tail * P.slotBytes)
    (hsize : pixels.length = P.slotBytes) (hinv : FifoInv P s pending)
    (h : Put P pd s path (some pixels) = Res.ok s1) :
    FifoInv P s1 (pending ++ [pixels]) := by
  have hcore1 : RingCore P.TOTAL_IMAGES s1 := ringCore_put P pd s s1 path _ hcap hinv.1 h
  obtain ⟨hcore, hstop, hlen, hslots⟩ := hinv
  obtain ⟨hlt, hb, ha, hs, hh, ht, hc, hbuf⟩ := Put_some_ok P pd s s1 path pixels hstop h
  obtain ⟨hhd, hcnt, htl⟩ := hcore
  have hc1 : s1.count = s.count + 1 := by rw [hc, add32_one_of_lt _ _ hlt hcap]
  have htlt : s.tail < P.TOTAL_IMAGES := by rw [htl]; exact Nat.mod_lt _ (by omega)
  rw [hoff] at hb hbuf
  refine ⟨hcore1, hs, by rw [List.length_append, hc1, hlen]; rfl, ?_⟩
  intro i hi
  rw [viewAt_eq, hbuf, hh]
  simp only [Option.getD_some]
  rw [hc1] at hi
  have hm1 := mod_two_range (s.head + i) P.TOTAL_IMAGES (by omega)
  have hm2 := mod_two_range (s.head + s.count) P.TOTAL_IMAGES (by omega)
  by_cases hic : i < s.count
  · rw [List.getElem?_append_left (by omega), hslots i hic, viewAt_eq]
    congr 1
    symm
    apply readAt_writeAt_disjoint _ _ _ _ _ hb
    rw [hsize]
    have hne : (s.head + i) % P.TOTAL_IMAGES ≠ s.tail := by
      rw [htl, hm1, hm2]; split <;> split <;> omega
    rcases Nat.lt_or_gt_of_ne hne with hl | hl
    · left
      have := Nat.mul_le_mul_right P.slotBytes (Nat.succ_le_of_lt hl)
      rw [Nat.succ_mul] at this
      exact this
    · right
      have := Nat.mul_le_mul_right P.slotBytes (Nat.succ_le_of_lt hl)
      rw [Nat.succ_mul] at this
      exact this
  · have hieq : i = s.count := by omega
    subst hieq
    rw [List.getElem?_append_right (by omega), hlen]
    simp only [Nat.sub_self, List.getElem?_cons_zero, Option.some.injEq]
    rw [← htl]
    have hrw := readAt_writeAt_same _ _ _ hb
    rw [hsize] at hrw
    exact hrw.symm

theorem fifo_get (P : Params) (s s1 : Loader) (ptr : Option Nat) (p : Bytes)
    (ps : List Bytes)
    (hcap : P.TOTAL_IMAGES < 2 ^ 32) (hoff : P.slotOffset s.head = s.head * P.slotBytes)
    (hinv : FifoInv P s (p :: ps)) (h : Get P s = Res.ok (ptr, s1)) :
    ptr.map (viewAt P s1) = some p ∧ FifoInv P s1 ps := by
  have hcore1 : RingCore P.TOTAL_IMAGES s1 := ringCore_get P s s1 ptr hcap hinv.1 h
  obtain ⟨hcore, hstop, hlen, hslots⟩ := hinv
  obtain ⟨hpos, hptr, ha, hs, hh, ht, hc, hbuf⟩ := Get_ok P s s1 ptr hstop h
  obtain ⟨hhd, hcnt, htl⟩ := hcore
  have hc1 : s1.count = s.count - 1 := by rw [hc, sub32_one_of_pos _ _ hpos hcnt hcap]
  have hh1 : s1.head = (s.head + 1) % P.TOTAL_IMAGES := by
    rw [hh, add32_one_of_lt _ _ hhd hcap]
  simp only [List.length_cons] at hlen
  refine ⟨?_, hcore1, hs, by omega, ?_⟩
  · rw [hptr, hoff]
    simp only [Option.map_some', Option.some.injEq]
    have h0 := hslots 0 hpos
    simp only [List.getElem?_cons_zero, Option.some.injEq, Nat.add_zero] at h0
    rw [Nat.mod_eq_of_lt hhd] at h0
    rw [h0, viewAt_eq, viewAt_eq, hbuf]
  · intro i hi
    rw [hc1] at hi
    have h1 := hslots (i + 1) (by omega)
    simp only [List.getElem?_cons_succ] at h1
    rw [h1, viewAt_eq, viewAt_eq, hbuf, hh1, Nat.mod_add_mod]
    have e : s.head + 1 + i = s.head + (i + 1) := by omega
    rw [e]

theorem allocation_lt (P : Params) : P.allocation < 2 ^ 32 := by
  unfold Params.allocation mul32
  exact Nat.mod_lt _ (by norm_num)

theorem offset_exact_of_le (P : Params) (i L : Nat) (h : i * P.slotBytes ≤ L)
    (hL : L < 2 ^ 32) : P.slotOffset i = i * P.slotBytes := by
  unfold Params.slotOffset
  rw [mul32_chain]
  have e : i * P.IMG_WIDTH * P.IMG_HEIGHT * P.channels = i * P.slotBytes := by
    unfold Params.slotBytes; ring
  rw [e]
  exact Nat.mod_eq_of_lt (by omega)

theorem slotsFit_tail (P : Params) (s : Loader) (hfit : SlotsFit P s)
    (hcore : RingCore P.TOTAL_IMAGES s) :
    P.slotOffset s.tail = s.tail * P.slotBytes := by
  obtain ⟨hL, hall | ⟨_, ht⟩⟩ := hfit
  · obtain ⟨hh, _, htl⟩ := hcore
    have htlt : s.tail < P.TOTAL_IMAGES := by rw [htl]; exact Nat.mod_lt _ (by omega)
    have := Nat.mul_le_mul_right P.slotBytes (Nat.le_of_lt htlt)
    exact offset_exact_of_le P _ _ (by omega) hL
  · exact offset_exact_of_le P _ _ ht hL

theorem slotsFit_head (P : Params) (s : Loader) (hfit : SlotsFit P s)
    (hcore : RingCore P.TOTAL_IMAGES s) :
    P.slotOffset s.head = s.head * P.slotBytes := by
  obtain ⟨hL, hall | ⟨hsum, ht⟩⟩ := hfit
  · have := Nat.mul_le_mul_right P.slotBytes (Nat.le_of_lt hcore.1)
    exact offset_exact_of_le P _ _ (by omega) hL
  · have : s.head ≤ s.tail := by omega
    have := Nat.mul_le_mul_right P.slotBytes this
    exact offset_exact_of_le P _ _ (by omega) hL

theorem length_writeAt (buf : Bytes) (off : Nat) (src : Bytes)
    (h : off + src.length ≤ buf.length) : (writeAt buf off src).length = buf.length := by
  unfold writeAt
  simp only [List.length_append, List.length_take, List.length_drop]
  omega

theorem slotsFit_put_none (P : Params) (pd : String → String) (s s1 : Loader)
    (path : String) (hstop : s.stop_thread = false) (hfit : SlotsFit P s)
    (h : Put P pd s path none = Res.ok s1) : SlotsFit P s1 := by
  obtain ⟨ha, hs, hh, ht, hc, hbuf⟩ := Put_none_ok P pd s s1 path hstop h
  unfold SlotsFit cacheLength at *
  rw [hbuf, hh, ht, hc]
  exact hfit

theorem slotsFit_put_some (P : Params) (pd : String → String) (s s1 : Loader)
    (path : String) (pixels : Bytes) (hcap : P.TOTAL_IMAGES < 2 ^ 32)
    (hsize : pixels.length = P.slotBytes) (hstop : s.stop_thread = false)
    (hcore : RingCore P.TOTAL_IMAGES s) (hfit : SlotsFit P s)
    (h : Put P pd s path (some pixels) = Res.ok s1) : SlotsFit P s1 := by
  have hoff := slotsFit_tail P s hfit hcore
  obtain ⟨hlt, hb, ha, hs, hh, ht, hc, hbuf⟩ := Put_some_ok P pd s s1 path pixels hstop h
  obtain ⟨hhd, hcnt, htl⟩ := hcore
  have htlt : s.tail < P.TOTAL_IMAGES := by rw [htl]; exact Nat.mod_lt _ (by omega)
  rw [hoff, hsize] at hb
  have hlen : cacheLength s1 = cacheLength s := by
    unfold cacheLength
    rw [hbuf, hoff]
    simp only [Option.getD_some]
    exact length_writeAt _ _ _ (by rw [hsize]; exact hb)
  have hb1 : (s.tail + 1) * P.slotBytes ≤ cacheLength s := by
    rw [Nat.succ_mul]; exact hb
  obtain ⟨hL, hall | ⟨hsum, _⟩⟩ := hfit
  · exact ⟨by rw [hlen]; exact hL, Or.inl (by rw [hlen]; exact hall)⟩
  · refine ⟨by rw [hlen]; exact hL, ?_⟩
    rw [hlen, hh, ht, hc, add32_one_of_lt _ _ hlt hcap, add32_one_of_lt _ _ htlt hcap]
    by_cases hw : s.tail + 1 < P.TOTAL_IMAGES
    · right
      rw [Nat.mod_eq_of_lt hw]
      exact ⟨by omega, hb1⟩
    · left
      have e : s.tail + 1 = P.TOTAL_IMAGES := by omega
      rw [← e]; exact hb1

theorem slotsFit_get (P : Params) (s s1 : Loader) (ptr : Option Nat)
    (hcap : P.TOTAL_IMAGES < 2 ^ 32) (hstop : s.stop_thread = false)
    (hcore : RingCore P.TOTAL_IMAGES s) (hfit : SlotsFit P s)
    (h : Get P s = Res.ok (ptr, s1)) : SlotsFit P s1 := by
  obtain ⟨hpos, _, ha, hs, hh, ht, hc, hbuf⟩ := Get_ok P s s1 ptr hstop h
  obtain ⟨hhd, hcnt, htl⟩ := hcore
  have hlen : cacheLength s1 = cacheLength s := by
    unfold cacheLength; rw [hbuf]
  obtain ⟨hL, hall | ⟨hsum, htf⟩⟩ := hfit
  · exact ⟨by rw [hlen]; exact hL, Or.inl (by rw [hlen]; exact hall)⟩
  · refine ⟨by rw [hlen]; exact hL, Or.inr ?_⟩
    have htlt : s.tail < P.TOTAL_IMAGES := by rw [htl]; exact Nat.mod_lt _ (by omega)
    rw [hlen, hh, ht, hc, add32_one_of_lt _ _ hhd hcap, sub32_one_of_pos _ _ hpos hcnt hcap,
      Nat.mod_eq_of_lt (by omega)]
    exact ⟨by omega, htf⟩

theorem fifo_general (P : Params) (pd : String → String)
    (hcap : P.TOTAL_IMAGES < 2 ^ 32) (ops : List Op) :
    ∀ (s : Loader) (pending : List Bytes) (w : List Bytes) (r : List (Option Bytes)),
      FifoInv P s pending → SlotsFit P s → Op.stop ∉ ops → slotSized P ops →
      trace P pd s ops = some (w, r) →
      r = ((pending ++ w).take r.length).map some := by
  induction ops with
  | nil =>
    intro s pending w r _ _ _ _ h
    simp only [trace, Option.some.injEq, Prod.mk.injEq] at h
    obtain ⟨_, h2⟩ := h
    subst h2
    simp
  | cons op ops ih =>
    intro s pending w r hinv hfit hns hsz h
    have hns1 : Op.stop ∉ ops := fun hm => hns (List.mem_cons_of_mem _ hm)
    have hsz1 : slotSized P ops := fun ip px hm => hsz ip px (List.mem_cons_of_mem _ hm)
    cases op with
    | stop => exact absurd (List.mem_cons_self _ _) hns
    | put path loaded =>
      simp only [trace] at h
      split at h
      · next s1 heq =>
        simp only [Option.map_eq_some', Prod.mk.injEq] at h
        obtain ⟨⟨w1, r1⟩, ht, hw, hr⟩ := h
        simp only at hw hr
        subst hr
        have hwr : written s loaded = loaded.toList := by
          unfold written; simp [hinv.2.1]
        cases loaded with
        | none =>
          have hinv1 := fifo_put_none P pd s s1 path pending hinv heq
          have hfit1 := slotsFit_put_none P pd s s1 path hinv.2.1 hfit heq
          have := ih s1 pending w1 r1 hinv1 hfit1 hns1 hsz1 ht
          rw [← hw, hwr]
          simpa using this
        | some pixels =>
          have hsize := hsz path pixels (List.mem_cons_self _ _)
          have hoff := slotsFit_tail P s hfit hinv.1
          have hinv1 := fifo_put_some P pd s s1 path pixels pending hcap hoff hsize hinv heq
          have hfit1 := slotsFit_put_some P pd s s1 path pixels hcap hsize hinv.2.1 hinv.1
            hfit heq
          have := ih s1 (pending ++ [pixels]) w1 r1 hinv1 hfit1 hns1 hsz1 ht
          rw [← hw, hwr]
          simpa using this
      · cases h
    | get =>
      simp only [trace] at h
      split at h
      · next ptr s1 heq =>
        simp only [Option.map_eq_some', Prod.mk.injEq] at h
        obtain ⟨⟨w1, r1⟩, ht, hw, hr⟩ := h
        simp only at hw hr
        subst hw hr
        have hpos := (Get_ok P s s1 ptr hinv.2.1 heq).1
        cases pending with
        | nil =>
          have := hinv.2.2.1
          simp only [List.length_nil] at this
          omega
        | cons p ps =>
          have hoff := slotsFit_head P s hfit hinv.1
          obtain ⟨hres, hinv1⟩ := fifo_get P s s1 ptr p ps hcap hoff hinv heq
          have hfit1 := slotsFit_get P s s1 ptr hcap hinv.2.1 hinv.1 hfit heq
          have := ih s1 ps w1 r1 hinv1 hfit1 hns1 hsz1 ht
          rw [hres]
          simp only [List.length_cons, List.cons_append, List.take_succ_cons, List.map_cons]
          rw [← this]
      · cases h

/-- C2. From `head = tail = count = 0` with the stop flag clear and the pixel
cache as `CreateDatasetForFolder` allocates it, in every sequence of `Put` and
`Get` calls that return (`Put` proceeding only when `count < capacity`, `Get`
only when `count > 0`), the `j`-th `Get` returns exactly the bytes stored by
the `j`-th successful `Put`. -/
theorem pipeline_fifo (P : Params) (pd : String → String) (s0 : Loader) (ops : List Op)
    (w : List Bytes) (r : List (Option Bytes))
    (hcap1 : 1 ≤ P.TOTAL_IMAGES) (hcap : P.TOTAL_IMAGES < 2 ^ 32)
    (hcache : cacheLength s0 = P.allocation)
    (hhead : s0.head = 0) (htail : s0.tail = 0) (hcount : s0.count = 0)
    (hstop : s0.stop_thread = false) (hns : Op.stop ∉ ops) (hsz : slotSized P ops)
    (htrace : trace P pd s0 ops = some (w, r)) :
    ∀ j, j < r.length → ∃ pixels, w[j]? = some pixels ∧ r[j]? = some (some pixels) := by
  have hinv : FifoInv P s0 [] := by
    refine ⟨⟨by omega, by omega, ?_⟩, hstop, by rw [hcount]; rfl, ?_⟩
    · rw [hhead, htail, hcount]; simp
    · intro i hi; omega
  have hfit : SlotsFit P s0 := by
    refine ⟨by rw [hcache]; exact allocation_lt P, Or.inr ?_⟩
    rw [hhead, htail, hcount]
    exact ⟨rfl, by simp⟩
  have hr := fifo_general P pd hcap ops s0 [] w r hinv hfit hns hsz htrace
  simp only [List.nil_append] at hr
  have hlen : r.length ≤ w.length := by
    have := congrArg List.length hr
    simp only [List.length_map, List.length_take] at this
    omega
  intro j hj
  have hjw : j < w.length := by omega
  refine ⟨w[j], List.getElem?_eq_getElem hjw, ?_⟩
  rw [hr]
  simp only [List.getElem?_map, List.length_map, List.length_take]
  rw [List.getElem?_take]
  simp [hj, List.getElem?_eq_getElem hjw]

/-- C2, at a concrete run: three images through a ring of two slots come out
in the order they went in. -/
theorem pipeline_fifo_witness :
    trace demoParams demoParent demoStart demoOps
      = some ([[1, 2], [3, 4], [5, 6]], [some [1, 2], some [3, 4], some [5, 6]]) ∧
    ∀ j, j < 3 → ∃ pixels, [[1, 2], [3, 4], [5, 6]][j]? = some pixels ∧
      [some [1, 2], some [3, 4], some [5, 6]][j]? = some (some pixels) :=
  ⟨by decide,
   pipeline_fifo demoParams demoParent demoStart demoOps [[1, 2], [3, 4], [5, 6]]
     [some [1, 2], some [3, 4], some [5, 6]] (by decide) (by decide)
     (by decide) rfl rfl rfl rfl (by decide)
     (by
      intro ip px hm
      simp only [demoOps, List.mem_cons, Op.put.injEq, Option.some.injEq, List.mem_singleton,
        reduceCtorEq, false_or, or_false, List.mem_nil_iff] at hm
      rcases hm with ⟨_, h⟩ | ⟨_, h⟩ | ⟨_, h⟩ <;> subst h <;> rfl)
     (by decide)⟩

/-- C3, refuted as stated: after one image was stored and `Stop()` was called,
`count` is 1, and `Get` returns `nullptr` and leaves the slot in the ring. -/
theorem get_after_stop_returns_null :
    run demoParams demoParent demoStart [Op.put "a/x" (some [1, 2]), Op.stop]
      = some demoStopped ∧
    demoStopped.stop_thread = true ∧ demoStopped.count = 1 ∧
    Get demoParams demoStopped = Res.ok (none, demoStopped) := by
  decide

/-- C3, amended. `Get` returns `nullptr` exactly when the stop flag is set,
whatever `count` is, and then changes nothing. With the stop flag clear it
returns when `count > 0`: the result is the slot at `head`, `head` becomes
`(head + 1) mod capacity`, `count` decreases by one, and the pixel cache is
as before; with `count = 0` it waits. -/
theorem get_behaviour (P : Params) (s : Loader)
    (hcap : P.TOTAL_IMAGES < 2 ^ 32) (hhead : s.head < P.TOTAL_IMAGES)
    (hcount : s.count ≤ P.TOTAL_IMAGES) :
    (s.stop_thread = true → Get P s = Res.ok (none, s)) ∧
    (s.stop_thread = false → 0 < s.count →
      ∃ s1, Get P s = Res.ok (some (P.slotOffset s.head), s1) ∧
        s1.head = (s.head + 1) % P.TOTAL_IMAGES ∧ s1.count = s.count - 1 ∧
        s1.tail = s.tail ∧ s1.stop_thread = false ∧
        ∀ off, viewAt P s1 off = viewAt P s off) ∧
    (s.stop_thread = false → s.count = 0 → Get P s = Res.blocked) := by
  refine ⟨?_, ?_, ?_⟩
  · intro hs
    unfold Get
    simp [hs]
  · intro hs hpos
    have hne : s.count ≠ 0 := by omega
    refine ⟨{ s with
        image_cache := (mapIndex s.image_cache s.active_dataset ([] : Bytes)).2
        head := add32 s.head 1 % P.TOTAL_IMAGES
        count := sub32 s.count 1 }, ?_, ?_, ?_, rfl, hs, ?_⟩
    · unfold Get
      simp only [hs, hpos, hne, Bool.false_eq_true, or_false, not_true_eq_false, if_false]
    · show add32 s.head 1 % P.TOTAL_IMAGES = _
      rw [add32_one_of_lt _ _ hhead hcap]
    · show sub32 s.count 1 = _
      rw [sub32_one_of_pos _ _ hpos hcount hcap]
    · intro off
      rw [viewAt_eq, viewAt_eq]
      simp [mapFind_mapIndex]
  · intro hs h0
    unfold Get
    simp [hs, h0]

/-- C3 amended, at concrete states with one slot filled: with the stop flag
set `Get` returns `nullptr`; with the stop flag clear it hands out slot 0 and
empties the ring. -/
theorem get_behaviour_witness :
    Get demoParams demoStopped = Res.ok (none, demoStopped) ∧
    Get demoParams demoFilled = Res.ok (some 0, { demoFilled with head := 1, count := 0 }) ∧
    ∃ s1, Get demoParams demoFilled
        = Res.ok (some (demoParams.slotOffset demoFilled.head), s1) ∧
      s1.head = (demoFilled.head + 1) % demoParams.TOTAL_IMAGES ∧
      s1.count = demoFilled.count - 1 ∧ s1.tail = demoFilled.tail ∧
      s1.stop_thread = false ∧
      ∀ off, viewAt demoParams s1 off = viewAt demoParams demoFilled off :=
  ⟨(get_behaviour demoParams demoStopped (by decide) (by decide) (by decide)).1 rfl,
   by decide,
   (get_behaviour demoParams demoFilled (by decide) (by decide) (by decide)).2.1 rfl
     (by decide)⟩

/-! ## Sampler: the draw loops -/

/-- A value is in the draw range of `[lo, hi]` when it is `lo + k` modulo
`2 ^ 32` for some `k` up to the width of the range. -/
theorem uniformInt_range (lo hi r : Nat) :
    ∃ k, k ≤ sub32 hi lo ∧ uniformInt lo hi r = add32 lo k := by
  refine ⟨r % (sub32 hi lo + 1), ?_, rfl⟩
  have : r % (sub32 hi lo + 1) < sub32 hi lo + 1 := Nat.mod_lt r (Nat.succ_pos _)
  omega

theorem drawFresh_spec (lo hi : Nat) (batch seen : List Nat) (rng : List Nat) :
    ∀ st, drawFresh lo hi batch seen rng = some st →
      ∃ x, st.batch_index = batch ++ [x] ∧ st.already_add = x :: seen ∧ x ∉ seen ∧
        ∃ k, k ≤ sub32 hi lo ∧ x = add32 lo k := by
  induction rng with
  | nil => intro st h; simp [drawFresh] at h
  | cons r rng ih =>
    intro st h
    simp only [drawFresh] at h
    split at h
    · exact ih st h
    · next hnot =>
      simp only [Option.some.injEq] at h
      subst h
      exact ⟨uniformInt lo hi r, rfl, rfl, hnot, uniformInt_range lo hi r⟩

theorem drawLoop_spec (lo hi : Nat) (n : Nat) :
    ∀ st st1, drawLoop lo hi n st = some st1 →
      ∃ g, st1.batch_index = st.batch_index ++ g ∧ g.length = n ∧ g.Nodup ∧
        (∀ x ∈ g, x ∉ st.already_add ∧ ∃ k, k ≤ sub32 hi lo ∧ x = add32 lo k) ∧
        (∀ x, x ∈ st1.already_add ↔ x ∈ g ∨ x ∈ st.already_add) := by
  induction n with
  | zero =>
    intro st st1 h
    simp only [drawLoop, Option.some.injEq] at h
    subst h
    exact ⟨[], by simp, rfl, List.nodup_nil, by simp, by simp⟩
  | succ n ih =>
    intro st st1 h
    simp only [drawLoop] at h
    split at h
    · next st2 heq =>
      obtain ⟨x, hb, ha, hx, hk⟩ := drawFresh_spec lo hi _ _ _ st2 heq
      obtain ⟨g, hg, hlen, hnd, hmem, hseen⟩ := ih st2 st1 h
      refine ⟨x :: g, ?_, by simp [hlen], ?_, ?_, ?_⟩
      · rw [hg, hb]; simp
      · rw [List.nodup_cons]
        refine ⟨?_, hnd⟩
        intro hxg
        have := (hmem x hxg).1
        rw [ha] at this
        exact this (List.mem_cons_self _ _)
      · intro y hy
        rcases List.mem_cons.mp hy with rfl | hy
        · exact ⟨hx, hk⟩
        · obtain ⟨h1, h2⟩ := hmem y hy
          rw [ha] at h1
          exact ⟨fun hc => h1 (List.mem_cons_of_mem _ hc), h2⟩
      · intro y
        rw [hseen y, ha]
        simp only [List.mem_cons]
        tauto
    · cases h

theorem drawLoop_distinct (lo hi n : Nat) (st st1 : Sampling)
    (h : drawLoop lo hi n st = some st1) (hinv : st.Distinct) : st1.Distinct := by
  obtain ⟨g, hg, _, hnd, hmem, hseen⟩ := drawLoop_spec lo hi n st st1 h
  obtain ⟨hbn, hbs⟩ := hinv
  constructor
  · rw [hg, List.nodup_append]
    refine ⟨hbn, hnd, ?_⟩
    intro x hx1 hx2
    exact (hmem x hx2).1 (hbs x hx1)
  · intro x hx
    rw [hg, List.mem_append] at hx
    rw [hseen x]
    rcases hx with hx | hx
    · exact Or.inr (hbs x hx)
    · exact Or.inl hx

/-- A run of distinct values inside a draw range of `d + 1` values has at most
`d + 1` members. -/
theorem nodup_length_le_range (g : List Nat) (lo d : Nat) (hnd : g.Nodup)
    (hmem : ∀ x ∈ g, ∃ k, k ≤ d ∧ x = add32 lo k) : g.length ≤ d + 1 := by
  have hsub : g.toFinset ⊆ (Finset.range (d + 1)).image (fun k => add32 lo k) := by
    intro x hx
    rw [List.mem_toFinset] at hx
    obtain ⟨k, hk, hxk⟩ := hmem x hx
    rw [Finset.mem_image]
    exact ⟨k, by rw [Finset.mem_range]; omega, hxk.symm⟩
  have hcard := (Finset.card_le_card hsub).trans Finset.card_image_le
  rw [List.toFinset_card_of_nodup hnd, Finset.card_range] at hcard
  exact hcard

/-- The draw range `[prev_size, prev_size + size]` has at most `size + 1`
values. -/
theorem sub32_add32_le (a b : Nat) : sub32 (add32 a b) a ≤ b := by
  unfold sub32 add32
  omega

theorem classLoop_spec (q : Nat) (sizes : List Nat) :
    ∀ prev st p1 st1, classLoop q sizes prev st = some (p1, st1) → st.Distinct →
      st1.Distinct ∧ st1.batch_index.length = st.batch_index.length + sizes.length * q ∧
      (∀ c ∈ sizes, q ≤ c + 1) := by
  induction sizes with
  | nil =>
    intro prev st p1 st1 h hinv
    simp only [classLoop, Option.some.injEq, Prod.mk.injEq] at h
    obtain ⟨_, h2⟩ := h
    subst h2
    exact ⟨hinv, by simp, by simp⟩
  | cons size rest ih =>
    intro prev st p1 st1 h hinv
    simp only [classLoop] at h
    split at h
    · next st2 heq =>
      have hinv2 := drawLoop_distinct _ _ _ st st2 heq hinv
      obtain ⟨g, hg, hlen, hnd, hmem, _⟩ := drawLoop_spec _ _ _ st st2 heq
      obtain ⟨hd, hl, hq⟩ := ih _ st2 p1 st1 h hinv2
      refine ⟨hd, ?_, ?_⟩
      · rw [hl, hg, List.length_append, hlen, List.length_cons, Nat.succ_mul]; omega
      · intro c hc
        rcases List.mem_cons.mp hc with rfl | hc
        · have := nodup_length_le_range g prev (sub32 (add32 prev c) prev) hnd
            (fun x hx => (hmem x hx).2)
          have := sub32_add32_le prev c
          omega
        · exact hq c hc
    · cases h

/-! ## Sampler: the shuffle -/

theorem count_set_add (l : List Nat) (a b : Nat) :
    ∀ i, i < l.length →
      (l.set i a).count b + (if l.getD i 0 = b then 1 else 0)
        = l.count b + (if a = b then 1 else 0) := by
  induction l with
  | nil => intro i hi; simp at hi
  | cons x xs ih =>
    intro i hi
    cases i with
    | zero =>
      simp only [List.set_cons_zero, List.count_cons, List.getD_cons_zero, beq_iff_eq]
      omega
    | succ i =>
      have := ih i (by simpa using hi)
      simp only [List.set_cons_succ, List.count_cons, List.getD_cons_succ, beq_iff_eq]
      omega

theorem getD_set_other (l : List Nat) (i j a : Nat) (hj : j < l.length) :
    (l.set i a).getD j 0 = if i = j then a else l.getD j 0 := by
  rw [List.getD_eq_getElem?_getD, List.getD_eq_getElem?_getD, List.getElem?_set]
  by_cases hij : i = j
  · subst hij
    simp [hj]
  · simp [hij]

theorem swapAt_perm (xs : List Nat) (i j : Nat) (hi : i < xs.length) (hj : j < xs.length) :
    (swapAt xs i j).Perm xs := by
  rw [List.perm_iff_count]
  intro b
  unfold swapAt
  have h1 := count_set_add xs (xs.getD j 0) b i hi
  have h2 := count_set_add (xs.set i (xs.getD j 0)) (xs.getD i 0) b j (by simpa using hj)
  rw [getD_set_other _ _ _ _ hj] at h2
  simp only [ite_self] at h2
  omega

theorem shuffleFrom_perm (steps : Nat) :
    ∀ (i : Nat) (xs rng ys rest : List Nat), i + steps ≤ xs.length →
      shuffleFrom i steps xs rng = some (ys, rest) → ys.Perm xs := by
  induction steps with
  | zero =>
    intro i xs rng ys rest _ h
    simp only [shuffleFrom, Option.some.injEq, Prod.mk.injEq] at h
    rw [← h.1]
  | succ steps ih =>
    intro i xs rng ys rest hlen h
    cases rng with
    | nil => simp [shuffleFrom] at h
    | cons r rng =>
      simp only [shuffleFrom] at h
      have hr : r % (i + 1) < i + 1 := Nat.mod_lt r (Nat.succ_pos i)
      have hp : (swapAt xs i (r % (i + 1))).Perm xs :=
        swapAt_perm xs i _ (by omega) (by omega)
      have := ih (i + 1) _ rng ys rest (by rw [hp.length_eq]; omega) h
      exact this.trans hp

theorem shuffleFrom_some (steps : Nat) :
    ∀ (i : Nat) (xs rng : List Nat), steps ≤ rng.length →
      ∃ ys rest, shuffleFrom i steps xs rng = some (ys, rest) := by
  induction steps with
  | zero => intro i xs rng _; exact ⟨xs, rng, by simp [shuffleFrom]⟩
  | succ steps ih =>
    intro i xs rng hlen
    cases rng with
    | nil => simp at hlen
    | cons r rng =>
      simp only [shuffleFrom]
      exact ih _ _ rng (by simpa using hlen)

/-- The small-population branch: what it returns is a rearrangement of
`0, ..., total - 1`. -/
theorem small_branch_perm (B : Nat) (each_size : List Nat) (t : Nat) (rng b : List Nat)
    (h20 : t ≤ 20) (h : GetRandomSampleClassIndex B each_size t rng = some b) :
    b.Perm (List.range t) := by
  unfold GetRandomSampleClassIndex at h
  simp only [h20, if_true] at h
  split at h
  · cases h
  · simp only [Option.map_eq_some', Prod.exists, exists_and_right, exists_eq_right] at h
    obtain ⟨rest, h⟩ := h
    unfold shuffle at h
    exact shuffleFrom_perm _ 1 _ rng b rest (by simp; omega) h

/-- The small-population branch returns once `total - 2` engine outputs are
there. -/
theorem small_branch_returns (B : Nat) (each_size : List Nat) (t : Nat) (rng : List Nat)
    (h1 : 1 ≤ t) (h20 : t ≤ 20) (hrng : t - 2 ≤ rng.length) :
    ∃ b, GetRandomSampleClassIndex B each_size t rng = some b := by
  unfold GetRandomSampleClassIndex
  have h0 : t ≠ 0 := by omega
  simp only [h20, if_true, h0, if_false]
  unfold shuffle
  obtain ⟨ys, rest, h⟩ := shuffleFrom_some ((List.range t).length - 1 - 1) 1 (List.range t) rng
    (by simp; omega)
  exact ⟨ys, by rw [h]; rfl⟩

theorem size_each_sample_eq (B k : Nat) (hk : 0 < k) : (B - B % k) / k = B / k := by
  have h := Nat.div_add_mod B k
  have e : B - B % k = k * (B / k) := by omega
  rw [e, Nat.mul_div_cancel_left _ hk]

/-- The stratified branch: what it returns has `batch_size` entries, all
different. -/
theorem stratified_branch (B : Nat) (each_size : List Nat) (t : Nat) (rng b : List Nat)
    (h20 : 20 < t) (h : GetRandomSampleClassIndex B each_size t rng = some b) :
    b.length = B ∧ b.Nodup ∧ ∀ c ∈ each_size, B / each_size.length ≤ c + 1 := by
  unfold GetRandomSampleClassIndex at h
  have hn : ¬ t ≤ 20 := by omega
  simp only [hn, if_false] at h
  split at h
  · cases h
  · next hk =>
    have hk0 : 0 < each_size.length := Nat.pos_of_ne_zero hk
    rw [size_each_sample_eq _ _ hk0] at h
    split at h
    · cases h
    · next p1 st heq =>
      simp only [Option.map_eq_some'] at h
      obtain ⟨st1, h1, h2⟩ := h
      have hd0 : Sampling.Distinct { batch_index := [], already_add := [], rng := rng } :=
        ⟨List.nodup_nil, by simp⟩
      obtain ⟨hd, hl, hq⟩ := classLoop_spec _ each_size 0 _ p1 st heq hd0
      have hd1 := drawLoop_distinct _ _ _ st st1 h1 hd
      obtain ⟨g, hg, hglen, _, _, _⟩ := drawLoop_spec _ _ _ st st1 h1
      subst h2
      refine ⟨?_, hd1.1, hq⟩
      have hl1 : st.batch_index.length = each_size.length * (B / each_size.length) := by
        simpa using hl
      rw [hg, List.length_append, hl1, hglen]
      exact Nat.div_add_mod B each_size.length

/-! ## Sampler: batch length, range, uniqueness -/

/-- C4, refuted as stated: with batch size 4 and classes of 3 and 3 (total 6,
below the threshold 20) the sampler returns 6 indices, not 4. -/
theorem sampler_small_batch_length :
    GetRandomSampleClassIndex 4 [3, 3] 6 [0, 0, 1, 3] = some [2, 3, 1, 4, 0, 5] ∧
    [2, 3, 1, 4, 0, 5].length ≠ 4 := by
  decide

/-- C4, amended. A batch the sampler returns has exactly `batch_size` indices
when the total population exceeds 20, and exactly `total` indices when the
total population is at most 20. -/
theorem sampler_batch_length (B : Nat) (each_size : List Nat) (t : Nat) (rng b : List Nat)
    (h : GetRandomSampleClassIndex B each_size t rng = some b) :
    b.length = if t ≤ 20 then t else B := by
  split
  · next h20 =>
    have := (small_branch_perm B each_size t rng b h20 h).length_eq
    simpa using this
  · next h20 => exact (stratified_branch B each_size t rng b (by omega) h).1

/-- C4 amended, at a concrete call: two classes of 11, batch size 4. -/
theorem sampler_batch_length_witness :
    GetRandomSampleClassIndex 4 [11, 11] 22 [3, 3, 5, 0, 0, 1] = some [3, 5, 11, 12] ∧
    [3, 5, 11, 12].length = if 22 ≤ 20 then 22 else 4 :=
  ⟨by decide,
   sampler_batch_length 4 [11, 11] 22 [3, 3, 5, 0, 0, 1] [3, 5, 11, 12] (by decide)⟩

/-- C5, the code at the failing input: one class of 21 (total 21, above the
threshold), batch size 1, and a draw that gives the upper end of the
distribution `[0, 21]`: the batch is `[21]`, an index equal to the total
population passed to the sampler. -/
theorem sampler_emits_total :
    GetRandomSampleClassIndex 1 [21] 21 [21] = some [21] ∧ ¬ (21 < [21].sum) := by
  decide

/-- C6. A batch the sampler returns contains no index twice, on the stratified
path and on the small-population path. -/
theorem sampler_unique (B : Nat) (each_size : List Nat) (t : Nat) (rng b : List Nat)
    (h : GetRandomSampleClassIndex B each_size t rng = some b) : b.Nodup := by
  by_cases h20 : t ≤ 20
  · exact (small_branch_perm B each_size t rng b h20 h).nodup_iff.mpr (List.nodup_range t)
  · exact (stratified_branch B each_size t rng b (by omega) h).2.1

/-- C6, at concrete calls: a stratified batch in which two draws were rejected
as repeats, and a shuffled small population. -/
theorem sampler_unique_witness :
    GetRandomSampleClassIndex 4 [11, 11] 22 [3, 3, 5, 0, 0, 1] = some [3, 5, 11, 12] ∧
    [3, 5, 11, 12].Nodup ∧
    GetRandomSampleClassIndex 4 [3, 3] 6 [0, 0, 1, 3] = some [2, 3, 1, 4, 0, 5] :=
  ⟨by decide,
   sampler_unique 4 [11, 11] 22 [3, 3, 5, 0, 0, 1] [3, 5, 11, 12] (by decide),
   by decide⟩

/-! ## Sampler: balance -/

theorem add32_exact (a b : Nat) (h : a + b < 2 ^ 32) : add32 a b = a + b := by
  unfold add32
  exact Nat.mod_eq_of_lt h

/-- The class loop appends one group of `q` indices per class, in class order,
and no index of the group of class `i` is below the first index of class
`i`. -/
theorem classLoop_groups (q : Nat) (sizes : List Nat) :
    ∀ prev st p1 st1, classLoop q sizes prev st = some (p1, st1) →
      prev + sizes.sum < 2 ^ 32 →
      p1 = prev + sizes.sum ∧
      ∃ groups, st1.batch_index = st.batch_index ++ groups ∧
        groups.length = sizes.length * q ∧
        ∀ i, i < sizes.length → ∀ j, j < q →
          ∃ x, groups[i * q + j]? = some x ∧ prev + (sizes.take i).sum ≤ x := by
  induction sizes with
  | nil =>
    intro prev st p1 st1 h _
    simp only [classLoop, Option.some.injEq, Prod.mk.injEq] at h
    obtain ⟨h1, h2⟩ := h
    subst h1 h2
    exact ⟨by simp, [], by simp, by simp, by intro i hi; simp at hi⟩
  | cons size rest ih =>
    intro prev st p1 st1 h hfit
    simp only [List.sum_cons] at hfit
    simp only [classLoop] at h
    rw [add32_exact prev size (by omega)] at h
    split at h
    · next st2 heq =>
      obtain ⟨g, hg, hglen, _, hmem, _⟩ := drawLoop_spec _ _ _ st st2 heq
      obtain ⟨hp, groups, hgr, hlen, hlow⟩ := ih (prev + size) st2 p1 st1 h (by omega)
      refine ⟨by rw [hp, List.sum_cons]; omega, g ++ groups, ?_, ?_, ?_⟩
      · rw [hgr, hg, List.append_assoc]
      · rw [List.length_append, hglen, hlen, List.length_cons, Nat.succ_mul]; omega
      · intro i hi j hj
        cases i with
        | zero =>
          have hjg : j < g.length := by omega
          refine ⟨g[j], ?_, ?_⟩
          · rw [Nat.zero_mul, Nat.zero_add, List.getElem?_append_left hjg]
            exact List.getElem?_eq_getElem hjg
          · obtain ⟨k, hk, hxk⟩ := (hmem g[j] (List.getElem_mem hjg)).2
            have hw : sub32 (prev + size) prev ≤ size := by
              have := sub32_add32_le prev size
              rwa [add32_exact prev size (by omega)] at this
            rw [hxk, add32_exact prev k (by omega)]
            simp
        | succ i =>
          obtain ⟨x, hx, hxl⟩ := hlow i (by simpa using hi) j hj
          refine ⟨x, ?_, ?_⟩
          · rw [List.getElem?_append_right (by rw [hglen, Nat.succ_mul]; omega)]
            rw [hglen, ← hx]
            congr 1
            rw [Nat.succ_mul]; omega
          · simp only [List.take_succ_cons, List.sum_cons]
            omega
    · cases h

theorem sum_take_add_le (l : List Nat) :
    ∀ i, i < l.length → (l.take i).sum + l.getD i 0 ≤ l.sum := by
  induction l with
  | nil => intro i hi; simp at hi
  | cons x xs ih =>
    intro i hi
    cases i with
    | zero => simp
    | succ i =>
      have := ih i (by simpa using hi)
      simp only [List.take_succ_cons, List.sum_cons, List.getD_cons_succ]
      omega

/-- Among `0, ..., n - 1` exactly `c` values lie in `[a, a + c)` when that range
ends at or before `n`. -/
theorem range_filter_length (n a c : Nat) (h : a + c ≤ n) :
    ((List.range n).filter (fun x => decide (a ≤ x ∧ x < a + c))).length = c := by
  have hnd : ((List.range n).filter (fun x => decide (a ≤ x ∧ x < a + c))).Nodup :=
    (List.nodup_range n).filter _
  rw [← List.toFinset_card_of_nodup hnd]
  have e : ((List.range n).filter (fun x => decide (a ≤ x ∧ x < a + c))).toFinset
      = Finset.Ico a (a + c) := by
    ext x
    simp only [List.mem_toFinset, List.mem_filter, List.mem_range, decide_eq_true_eq,
      Finset.mem_Ico]
    constructor
    · rintro ⟨_, h2⟩; exact h2
    · intro h2; exact ⟨by omega, h2⟩
  rw [e, Nat.card_Ico]
  omega

/-- The stratified branch: entry `i * q + j` of the batch (`j < q`, with `q` the
quota `batch_size / k`) was drawn for class `i` and is not below the first
index of class `i`. -/
theorem stratified_groups (B : Nat) (each_size : List Nat) (t : Nat) (rng b : List Nat)
    (h20 : 20 < t) (hfit : each_size.sum < 2 ^ 32)
    (h : GetRandomSampleClassIndex B each_size t rng = some b) :
    ∀ i, i < each_size.length → ∀ j, j < B / each_size.length →
      ∃ x, b[i * (B / each_size.length) + j]? = some x ∧ classOffset each_size i ≤ x := by
  unfold GetRandomSampleClassIndex at h
  have hn : ¬ t ≤ 20 := by omega
  simp only [hn, if_false] at h
  split at h
  · cases h
  · next hk =>
    have hk0 : 0 < each_size.length := Nat.pos_of_ne_zero hk
    rw [size_each_sample_eq _ _ hk0] at h
    split at h
    · cases h
    · next p1 st heq =>
      simp only [Option.map_eq_some'] at h
      obtain ⟨st1, h1, h2⟩ := h
      obtain ⟨_, groups, hgr, hlen, hlow⟩ :=
        classLoop_groups _ each_size 0 _ p1 st heq (by omega)
      obtain ⟨g, hg, _, _, _, _⟩ := drawLoop_spec _ _ _ st st1 h1
      subst h2
      intro i hi j hj
      obtain ⟨x, hx, hxl⟩ := hlow i hi j hj
      refine ⟨x, ?_, by unfold classOffset; omega⟩
      have hidx : i * (B / each_size.length) + j < groups.length := by
        rw [hlen]
        have := Nat.mul_le_mul_right (B / each_size.length) (Nat.succ_le_of_lt hi)
        rw [Nat.succ_mul] at this
        omega
      rw [hg, hgr]
      simp only [List.nil_append]
      rw [List.getElem?_append_left hidx]
      exact hx

/-- C7, refuted as stated: for classes A(10), B(10) and batch size 4 the total
20 is at the threshold, and the batch has 20 indices, 10 from each class. -/
theorem sampler_balance_scenario :
    GetRandomSampleClassIndex 4 [10, 10] 20 (List.replicate 18 0)
      = some [18, 0, 1, 2, 3, 4, 5, 6, 7, 8, 9, 10, 11, 12, 13, 14, 15, 16, 17, 19] ∧
    [18, 0, 1, 2, 3, 4, 5, 6, 7, 8, 9, 10, 11, 12, 13, 14, 15, 16, 17, 19].length = 20 ∧
    classCount [10, 10] 0
      [18, 0, 1, 2, 3, 4, 5, 6, 7, 8, 9, 10, 11, 12, 13, 14, 15, 16, 17, 19] = 10 ∧
    classCount [10, 10] 1
      [18, 0, 1, 2, 3, 4, 5, 6, 7, 8, 9, 10, 11, 12, 13, 14, 15, 16, 17, 19] = 10 := by
  decide

/-- C7, amended. Let the sampler return a batch for class counts `c_1..c_k`
with total `t`. If `t ≤ 20`, the batch has `t` indices and contains all `c_i`
indices of the range `[offset_i, offset_i + c_i)` of every class. If `t > 20`,
the batch has `batch_size` distinct indices, and for every class `i` the
`batch_size / k` entries from position `i * (batch_size / k)` on were drawn for
class `i`, none of them below `offset_i`. -/
theorem sampler_balance (B : Nat) (each_size : List Nat) (rng b : List Nat)
    (hfit : each_size.sum < 2 ^ 31)
    (h : GetRandomSampleClassIndex B each_size each_size.sum rng = some b) :
    (each_size.sum ≤ 20 →
      b.length = each_size.sum ∧
      ∀ i, i < each_size.length → classCount each_size i b = each_size.getD i 0) ∧
    (20 < each_size.sum →
      b.length = B ∧ b.Nodup ∧
      ∀ i, i < each_size.length → ∀ j, j < B / each_size.length →
        ∃ x, b[i * (B / each_size.length) + j]? = some x ∧ classOffset each_size i ≤ x) := by
  constructor
  · intro h20
    have hp := small_branch_perm B each_size _ rng b h20 h
    refine ⟨by simpa using hp.length_eq, ?_⟩
    intro i hi
    unfold classCount
    rw [(hp.filter _).length_eq]
    apply range_filter_length
    unfold classOffset
    exact sum_take_add_le each_size i hi
  · intro h20
    obtain ⟨hl, hnd, _⟩ := stratified_branch B each_size _ rng b h20 h
    exact ⟨hl, hnd, stratified_groups B each_size _ rng b h20 (by omega) h⟩

/-- C7 amended, at concrete calls: two classes of 11 with batch size 4 (two
draws per class), and two classes of 3 (the whole range). -/
theorem sampler_balance_witness :
    GetRandomSampleClassIndex 4 [11, 11] 22 [3, 3, 5, 0, 0, 1] = some [3, 5, 11, 12] ∧
    (∀ i, i < 2 → ∀ j, j < 2 →
      ∃ x, [3, 5, 11, 12][i * 2 + j]? = some x ∧ classOffset [11, 11] i ≤ x) ∧
    classCount [3, 3] 1 [2, 3, 1, 4, 0, 5] = 3 :=
  ⟨by decide,
   ((sampler_balance 4 [11, 11] [3, 3, 5, 0, 0, 1] [3, 5, 11, 12] (by decide)
      (by decide)).2 (by decide)).2.2,
   ((sampler_balance 4 [3, 3] [0, 0, 1, 3] [2, 3, 1, 4, 0, 5] (by decide)
      (by decide)).1 (by decide)).2 1 (by decide)⟩

/-! ## Sampler: exhaustion -/

/-- C8, refuted as stated: for classes A(4), B(2) and batch size 6 the quota 3
exceeds the population of B, and the sampler returns a batch. -/
theorem sampler_returns_on_exhausted_quota :
    6 / [4, 2].length = 3 ∧
    GetRandomSampleClassIndex 6 [4, 2] 6 [0, 1, 2, 3] = some [1, 2, 3, 4, 0, 5] := by
  decide

/-- C8, amended. The sampler has no exhaustion report. With a total population
of at most 20 it returns the shuffled batch whatever the quotas are. With a
total population above 20, if the quota `batch_size / k` of some class exceeds
that class's population by more than one, the sampler returns no batch for any
sequence of draws: its draw-and-reject loop does not end. -/
theorem sampler_no_exhaustion_report (B : Nat) (each_size : List Nat) (t : Nat)
    (rng : List Nat) :
    (1 ≤ t → t ≤ 20 → t - 2 ≤ rng.length →
      ∃ b, GetRandomSampleClassIndex B each_size t rng = some b) ∧
    (20 < t → (∃ c ∈ each_size, c + 1 < B / each_size.length) →
      GetRandomSampleClassIndex B each_size t rng = none) := by
  constructor
  · intro h1 h20 hrng
    exact small_branch_returns B each_size t rng h1 h20 hrng
  · rintro h20 ⟨c, hc, hq⟩
    cases hres : GetRandomSampleClassIndex B each_size t rng with
    | none => rfl
    | some b =>
      have := (stratified_branch B each_size t rng b h20 hres).2.2 c hc
      omega

/-- C8 amended, at concrete calls: classes of 30 and 1 with batch size 6 (quota
3, two values to draw from) never give a batch; classes A(4), B(2) do. -/
theorem sampler_no_exhaustion_report_witness :
    GetRandomSampleClassIndex 6 [30, 1] 31 [0, 1, 2, 30, 31, 30, 31, 30, 31] = none ∧
    ∃ b, GetRandomSampleClassIndex 6 [4, 2] 6 [0, 1, 2, 3] = some b :=
  ⟨(sampler_no_exhaustion_report 6 [30, 1] 31 [0, 1, 2, 30, 31, 30, 31, 30, 31]).2
      (by decide) ⟨1, by decide, by decide⟩,
   (sampler_no_exhaustion_report 6 [4, 2] 6 [0, 1, 2, 3]).1
      (by decide) (by decide) (by decide)⟩

/-! ## Sampler: small populations -/

/-- C9. For a total population `t` with `1 ≤ t ≤ 20` the sampler returns,
whatever the shuffle draws, and the batch is a permutation of `[0, t)`. -/
theorem small_population_permutation (B : Nat) (each_size : List Nat) (t : Nat)
    (rng : List Nat) (h1 : 1 ≤ t) (h20 : t ≤ 20) (hrng : t - 2 ≤ rng.length) :
    ∃ b, GetRandomSampleClassIndex B each_size t rng = some b ∧ b.Perm (List.range t) := by
  obtain ⟨b, hb⟩ := small_branch_returns B each_size t rng h1 h20 hrng
  exact ⟨b, hb, small_branch_perm B each_size t rng b h20 hb⟩

/-- C9, at a concrete call: six indices, four shuffle draws. -/
theorem small_population_permutation_witness :
    GetRandomSampleClassIndex 4 [3, 3] 6 [0, 0, 1, 3] = some [2, 3, 1, 4, 0, 5] ∧
    ∃ b, GetRandomSampleClassIndex 4 [3, 3] 6 [0, 0, 1, 3] = some b ∧
      b.Perm (List.range 6) :=
  ⟨by decide,
   small_population_permutation 4 [3, 3] 6 [0, 0, 1, 3] (by decide) (by decide) (by decide)⟩

/-! ## Background loop: the empty-dataset check -/

/-- C10, the code at the failing inputs: with one registered class of one
image the loop throws its "No image found" error, and with one registered
class of no image it does not throw and goes on with a total of `2 ^ 32 - 1`. -/
theorem loaders_empty_check_off_by_one :
    LoadersStart { Loader.init with each_class_sizes := [1] }
      = Res.threw "Error LanternImageLoader, No image found in dataset" ∧
    LoadersStart { Loader.init with each_class_sizes := [0] }
      = Res.ok ({ Loader.init with each_class_sizes := [4294967295] }, 4294967295) := by
  decide

/-! ## `Put` without effect -/

theorem mapFind_mapSet_other {α : Type} (m : List (String × α)) (k k1 : String) (v : α)
    (h : k1 ≠ k) : mapFind (mapSet m k v) k1 = mapFind m k1 := by
  induction m with
  | nil =>
    simp only [mapSet, mapFind]
    rw [if_neg (fun e => h e.symm)]
  | cons kv rest ih =>
    obtain ⟨k2, v2⟩ := kv
    by_cases h2 : k2 = k
    · subst h2
      simp only [mapSet, if_true, mapFind]
      rw [if_neg (fun e => h e.symm), if_neg (fun e => h e.symm)]
    · simp only [mapSet, if_neg h2, mapFind, ih]

/-- Reading a map through a default is not affected by `m[k]` inserting that
default. -/
theorem mapFind_mapIndex_getD {α : Type} (m : List (String × α)) (k k1 : String) (d : α) :
    (mapFind (mapIndex m k d).2 k1).getD d = (mapFind m k1).getD d := by
  by_cases h : k1 = k
  · subst h
    rw [mapFind_mapIndex]
    rfl
  · unfold mapIndex
    cases hm : mapFind m k with
    | none => simp only [mapFind_mapSet_other _ _ _ _ h]
    | some v => rfl

/-- C11. A `Put` that observes the stop flag returns the loader as it was. A
`Put` whose decoder fails returns with `head`, `tail`, `count`, the stop flag
and the active dataset as they were, and with the pixel bytes and the label of
every slot of every dataset as they were; with the stop flag clear it returns
as soon as `count < capacity` and a dataset is selected. -/
theorem put_no_effect (P : Params) (pd : String → String) (s : Loader) (path : String) :
    (∀ loaded, s.stop_thread = true → Put P pd s path loaded = Res.ok s) ∧
    (∀ s1, Put P pd s path none = Res.ok s1 →
      s1.head = s.head ∧ s1.tail = s.tail ∧ s1.count = s.count ∧
      s1.stop_thread = s.stop_thread ∧ s1.active_dataset = s.active_dataset ∧
      (∀ d, pixelsOf s1 d = pixelsOf s d) ∧
      (∀ d i, labelOf P s1 d i = labelOf P s d i)) ∧
    (s.stop_thread = false → s.count < P.TOTAL_IMAGES → s.active_dataset ≠ "" →
      ∃ s1, Put P pd s path none = Res.ok s1) := by
  refine ⟨?_, ?_, ?_⟩
  · intro loaded hs
    unfold Put
    simp [hs]
  · intro s1 h
    unfold Put at h
    split at h
    · cases h
    · split at h
      · simp only [Res.ok.injEq] at h
        subst h
        exact ⟨rfl, rfl, rfl, rfl, rfl, fun _ => rfl, fun _ _ => rfl⟩
      · split at h
        · cases h
        · simp only [Res.ok.injEq] at h
          subst h
          refine ⟨rfl, rfl, rfl, rfl, rfl, ?_, ?_⟩
          · intro d
            exact mapFind_mapIndex_getD _ _ _ _
          · intro d i
            unfold labelOf labelsOf
            simp only
            rw [mapFind_mapIndex_getD]
  · intro hs hc ha
    unfold Put
    simp [hs, hc, ha]

/-- C11, at concrete states: a `Put` on the stopped loader and a `Put` whose
decoder fails on the running loader both return with the ring as it was. -/
theorem put_no_effect_witness :
    Put demoParams demoParent demoStopped "b/y" (some [3, 4]) = Res.ok demoStopped ∧
    (∃ s1, Put demoParams demoParent demoFilled "b/y" none = Res.ok s1) ∧
    Put demoParams demoParent demoFilled "b/y" none = Res.ok demoFilled :=
  ⟨(put_no_effect demoParams demoParent demoStopped "b/y").1 (some [3, 4]) rfl,
   (put_no_effect demoParams demoParent demoFilled "b/y").2.2 rfl (by decide) (by decide),
   by decide⟩

/-! ## Full ring -/

/-- C17, refuted as stated: after two images were stored in a ring of two
slots, `count` is 2 and `head = tail = 0`. -/
theorem full_ring_head_eq_tail :
    run demoParams demoParent demoStart
        [Op.put "a/x" (some [1, 2]), Op.put "b/y" (some [3, 4])]
      = some { demoStart with
          image_cache := [("d", [1, 2, 3, 4])], label_cache := [("d", ["a", "b"])],
          head := 0, tail := 0, count := 2 } := by
  decide

/-- C17, amended. In every state reached by `Put`, `Get` and `Stop` calls from
`head = tail = count = 0`, if `count > 0` then `head = tail` exactly when the
ring is full (`count = capacity`); so `0 < count < capacity` implies
`head ≠ tail`. -/
theorem head_ne_tail_unless_full (P : Params) (pd : String → String) (s0 s : Loader)
    (ops : List Op) (hcap1 : 1 ≤ P.TOTAL_IMAGES) (hcap : P.TOTAL_IMAGES < 2 ^ 32)
    (hhead : s0.head = 0) (htail : s0.tail = 0) (hcount : s0.count = 0)
    (hrun : run P pd s0 ops = some s) (hpos : 0 < s.count) :
    s.head = s.tail ↔ s.count = P.TOTAL_IMAGES := by
  have hcore : RingCore P.TOTAL_IMAGES s := by
    apply ringCore_run P pd ops s0 s hcap _ hrun
    refine ⟨by omega, by omega, ?_⟩
    rw [hhead, htail, hcount]
    simp
  obtain ⟨hh, hc, ht⟩ := hcore
  have hm := mod_two_range (s.head + s.count) P.TOTAL_IMAGES (by omega)
  rw [ht, hm]
  split <;> omega

/-- C17 amended, at a concrete run: one image in a ring of two slots. -/
theorem head_ne_tail_unless_full_witness :
    run demoParams demoParent demoStart [Op.put "a/x" (some [1, 2])] = some demoFilled ∧
    (demoFilled.head = demoFilled.tail ↔ demoFilled.count = demoParams.TOTAL_IMAGES) :=
  ⟨by decide,
   head_ne_tail_unless_full demoParams demoParent demoStart demoFilled
     [Op.put "a/x" (some [1, 2])] (by decide) (by decide) rfl rfl rfl (by decide)
     (by decide)⟩

/-! ## Dataset registry -/

theorem mapContains_mapSet {α : Type} (m : List (String × α)) (k n : String) (v : α) :
    mapContains (mapSet m k v) n = true ↔ n = k ∨ mapContains m n = true := by
  unfold mapContains
  by_cases h : n = k
  · subst h
    simp [mapFind_mapSet_same]
  · rw [mapFind_mapSet_other _ _ _ _ h]
    simp [h]

theorem mapIndex_of_contains {α : Type} (m : List (String × α)) (k : String) (d : α)
    (h : mapContains m k = true) : (mapIndex m k d).2 = m := by
  unfold mapContains at h
  unfold mapIndex
  cases hm : mapFind m k with
  | none => rw [hm] at h; simp at h
  | some v => rfl

theorem registered_put (P : Params) (pd : String → String) (s s1 : Loader) (path : String)
    (loaded : Option Bytes) (cr : List String) (hreg : Registered s cr)
    (h : Put P pd s path loaded = Res.ok s1) : Registered s1 cr := by
  obtain ⟨hkeys, hact⟩ := hreg
  unfold Put at h
  split at h
  · cases h
  · split at h
    · cases h; exact ⟨hkeys, hact⟩
    · split at h
      · cases h
      · next hne =>
        have hc : mapContains s.image_cache s.active_dataset = true := by
          rcases hact with ⟨h0, _⟩ | h0
          · exact absurd h0 hne
          · exact h0
        have hidx := mapIndex_of_contains s.image_cache s.active_dataset ([] : Bytes) hc
        cases loaded with
        | none =>
          simp only [Res.ok.injEq] at h
          subst h
          refine ⟨?_, Or.inr ?_⟩
          · intro n; show mapContains (mapIndex s.image_cache s.active_dataset []).2 n = true ↔ _
            rw [hidx]; exact hkeys n
          · show mapContains (mapIndex s.image_cache s.active_dataset []).2 _ = true
            rw [hidx]; exact hc
        | some pixels =>
          simp only at h
          split at h
          · simp only [Res.ok.injEq] at h
            subst h
            refine ⟨?_, Or.inr ?_⟩
            · intro n
              show mapContains (mapSet (mapIndex s.image_cache s.active_dataset []).2 _ _) n
                = true ↔ _
              rw [hidx, mapContains_mapSet, ← hkeys n]
              constructor
              · rintro (rfl | h1)
                · exact hc
                · exact h1
              · intro h1; exact Or.inr h1
            · show mapContains (mapSet (mapIndex s.image_cache s.active_dataset []).2 _ _) _
                = true
              rw [mapContains_mapSet]; exact Or.inl rfl
          · cases h

theorem registered_get (P : Params) (s s1 : Loader) (ptr : Option Nat) (cr : List String)
    (hreg : Registered s cr) (h : Get P s = Res.ok (ptr, s1)) : Registered s1 cr := by
  obtain ⟨hkeys, hact⟩ := hreg
  unfold Get at h
  split at h
  · cases h
  · split at h
    · simp only [Res.ok.injEq, Prod.mk.injEq] at h
      obtain ⟨_, h2⟩ := h
      subst h2; exact ⟨hkeys, hact⟩
    · next hns =>
      simp only [Res.ok.injEq, Prod.mk.injEq] at h
      obtain ⟨_, h2⟩ := h
      subst h2
      have hc : mapContains s.image_cache s.active_dataset = true := by
        rcases hact with ⟨_, h0⟩ | h0
        · exact absurd (Or.inr h0) hns
        · exact h0
      have hidx := mapIndex_of_contains s.image_cache s.active_dataset ([] : Bytes) hc
      refine ⟨?_, Or.inr ?_⟩
      · intro n; show mapContains (mapIndex s.image_cache s.active_dataset []).2 n = true ↔ _
        rw [hidx]; exact hkeys n
      · show mapContains (mapIndex s.image_cache s.active_dataset []).2 _ = true
        rw [hidx]; exact hc

theorem registered_perform (P : Params) (ext pd : String → String) (s : Loader) (c : Call)
    (d : Done) (cr : List String) (hreg : Registered s cr)
    (h : perform P ext pd s c = some d) : Registered d.state (cr ++ registers c d) := by
  obtain ⟨hkeys, hact⟩ := hreg
  cases c with
  | create name =>
    simp only [perform, Option.some.injEq] at h
    subst h
    unfold CreateDatasetForFolder
    split
    · next hc => simpa [registers] using ⟨hkeys, hact⟩
    · next hc =>
      change Registered _ (cr ++ [name])
      refine ⟨?_, ?_⟩
      · intro n
        rw [mapContains_mapSet, hkeys n, List.mem_append, List.mem_singleton]
        tauto
      · rcases hact with h0 | h0
        · exact Or.inl h0
        · right
          rw [mapContains_mapSet]; exact Or.inr h0
  | select name =>
    simp only [perform, Option.some.injEq] at h
    subst h
    unfold SelectDatasetToModify
    split
    · simpa [registers] using ⟨hkeys, hact⟩
    · next hc =>
      simp only [registers, List.append_nil]
      exact ⟨hkeys, Or.inr (not_not.mp hc)⟩
  | addFolder path listing =>
    simp only [perform, Option.some.injEq] at h
    subst h
    unfold GetImagesDataFromFolder
    split
    · simpa [registers] using ⟨hkeys, hact⟩
    · cases listing with
      | none => simpa [registers] using ⟨hkeys, hact⟩
      | some files => simpa [registers] using ⟨hkeys, hact⟩
  | put path loaded =>
    simp only [perform] at h
    split at h
    · next s1 heq =>
      simp only [Option.some.injEq] at h
      subst h
      simpa [registers] using registered_put P pd s s1 path loaded cr ⟨hkeys, hact⟩ heq
    · simp only [Option.some.injEq] at h
      subst h
      simpa [registers] using ⟨hkeys, hact⟩
    · cases h
  | get =>
    simp only [perform] at h
    split at h
    · next ptr s1 heq =>
      simp only [Option.some.injEq] at h
      subst h
      simpa [registers] using registered_get P s s1 ptr cr ⟨hkeys, hact⟩ heq
    · simp only [Option.some.injEq] at h
      subst h
      simpa [registers] using ⟨hkeys, hact⟩
    · cases h
  | stop =>
    simp only [perform, Option.some.injEq] at h
    subst h
    simpa [registers, Stop] using ⟨hkeys, hact⟩

theorem registered_history (P : Params) (ext pd : String → String) (calls : List Call) :
    ∀ (s s1 : Loader) (cr created : List String), Registered s cr →
      history P ext pd s calls = some (s1, created) → Registered s1 (cr ++ created) := by
  induction calls with
  | nil =>
    intro s s1 cr created hreg h
    simp only [history, Option.some.injEq, Prod.mk.injEq] at h
    obtain ⟨h1, h2⟩ := h
    subst h1 h2
    simpa using hreg
  | cons c rest ih =>
    intro s s1 cr created hreg h
    simp only [history] at h
    split at h
    · next d heq =>
      simp only [Option.map_eq_some', Prod.mk.injEq] at h
      obtain ⟨⟨s2, cr2⟩, hh, h1, h2⟩ := h
      simp only at h1 h2
      subst h1 h2
      have := ih d.state s2 _ cr2 (registered_perform P ext pd s c d cr hreg heq) hh
      simpa [List.append_assoc] using this
    · cases h

theorem registered_init : Registered Loader.init [] := by
  refine ⟨?_, Or.inl ⟨rfl, rfl⟩⟩
  intro n
  simp [Loader.init, mapContains, mapFind]

/-- The registered names after a history that starts from a fresh loader. -/
theorem registered_from_init (P : Params) (ext pd : String → String) (calls : List Call)
    (s : Loader) (created : List String)
    (h : history P ext pd Loader.init calls = some (s, created)) (n : String) :
    mapContains s.image_cache n = true ↔ n ∈ created := by
  have := registered_history P ext pd calls Loader.init s [] created registered_init h
  simpa using this.1 n

/-- C13, the code at the failing input: dataset `a` received a folder of two
images and dataset `b` a folder of three. The class counts the background loop
samples from are `[2, 3]`, with sum 5, for both datasets, whose path lists
have 2 and 3 entries; for the active dataset `b` the loop passes the total 4 to
the sampler, which can return index 3, one past the end of the path list of
`b`. -/
theorem class_sizes_shared_by_datasets :
    history demoParams demoExtension demoParent Loader.init demoTwoDatasets
      = some (demoTwoLoaded, ["a", "b"]) ∧
    demoTwoLoaded.each_class_sizes.sum = 5 ∧
    (pathsOf demoTwoLoaded "a").length = 2 ∧ (pathsOf demoTwoLoaded "b").length = 3 ∧
    LoadersStart demoTwoLoaded
      = Res.ok ({ demoTwoLoaded with each_class_sizes := [2, 2] }, 4) ∧
    GetRandomSampleClassIndex 2 [2, 2] 4 [0, 0] = some [2, 0, 1, 3] := by
  decide

/-- C14. After every history of calls on a fresh loader, `CreateDatasetForFolder`
throws its "already exists" error exactly when the name was registered by a
successful create of the history, succeeds exactly when it was not, and a
create that throws leaves the loader as it was. -/
theorem create_fails_iff_registered (P : Params) (ext pd : String → String)
    (calls : List Call) (s : Loader) (created : List String) (name : String)
    (h : history P ext pd Loader.init calls = some (s, created)) :
    ((CreateDatasetForFolder P s name).error
        = some ("Error LanternImageLoader, Cannot create dataset \"" ++ name
            ++ "\" because already exists") ↔ name ∈ created) ∧
    ((CreateDatasetForFolder P s name).error = none ↔ name ∉ created) ∧
    ((CreateDatasetForFolder P s name).error ≠ none →
      (CreateDatasetForFolder P s name).state = s) := by
  have hk := registered_from_init P ext pd calls s created h name
  unfold CreateDatasetForFolder
  by_cases hc : mapContains s.image_cache name = true
  · have hm : name ∈ created := hk.mp hc
    simp [hc, hm]
  · have hm : name ∉ created := fun hm => hc (hk.mpr hm)
    simp [hc, hm]

/-- C14, at a concrete history: after `a` and `b` were created, creating `a`
again throws and creating `c` succeeds. -/
theorem create_fails_iff_registered_witness :
    history demoParams demoExtension demoParent Loader.init demoTwoDatasets
      = some (demoTwoLoaded, ["a", "b"]) ∧
    ((CreateDatasetForFolder demoParams demoTwoLoaded "a").error
        = some ("Error LanternImageLoader, Cannot create dataset \"" ++ "a"
            ++ "\" because already exists") ↔ "a" ∈ ["a", "b"]) ∧
    ((CreateDatasetForFolder demoParams demoTwoLoaded "c").error = none
      ↔ "c" ∉ ["a", "b"]) ∧
    (CreateDatasetForFolder demoParams demoTwoLoaded "a").state = demoTwoLoaded :=
  ⟨by decide,
   (create_fails_iff_registered demoParams demoExtension demoParent demoTwoDatasets
      demoTwoLoaded ["a", "b"] "a" (by decide)).1,
   (create_fails_iff_registered demoParams demoExtension demoParent demoTwoDatasets
      demoTwoLoaded ["a", "b"] "c" (by decide)).2.1,
   (create_fails_iff_registered demoParams demoExtension demoParent demoTwoDatasets
      demoTwoLoaded ["a", "b"] "a" (by decide)).2.2 (by decide)⟩

/-- C15. After every history of calls on a fresh loader, `SelectDatasetToModify`
throws its "do not exists" error exactly when the name was not registered by a
successful create of the history; a select that throws leaves the loader, and
so the active dataset, as it was; a select that succeeds makes the name the
active dataset. -/
theorem select_fails_iff_unregistered (P : Params) (ext pd : String → String)
    (calls : List Call) (s : Loader) (created : List String) (name : String)
    (h : history P ext pd Loader.init calls = some (s, created)) :
    ((SelectDatasetToModify s name).error
        = some ("Error LanternImageLoader, dataset \"" ++ name ++ "\" do not exists")
      ↔ name ∉ created) ∧
    ((SelectDatasetToModify s name).error ≠ none →
      (SelectDatasetToModify s name).state = s) ∧
    ((SelectDatasetToModify s name).error = none →
      name ∈ created ∧ (SelectDatasetToModify s name).state.active_dataset = name) := by
  have hk := registered_from_init P ext pd calls s created h name
  unfold SelectDatasetToModify
  by_cases hc : mapContains s.image_cache name = true
  · have hm : name ∈ created := hk.mp hc
    simp [hc, hm]
  · have hm : name ∉ created := fun hm => hc (hk.mpr hm)
    simp [hc, hm]

/-- C15, at a concrete history: after `a` and `b` were created and `b`
selected, selecting `zz` throws and leaves `b` active, and selecting `a`
succeeds. -/
theorem select_fails_iff_unregistered_witness :
    history demoParams demoExtension demoParent Loader.init demoTwoDatasets
      = some (demoTwoLoaded, ["a", "b"]) ∧
    ((SelectDatasetToModify demoTwoLoaded "zz").error
        = some ("Error LanternImageLoader, dataset \"" ++ "zz" ++ "\" do not exists")
      ↔ "zz" ∉ ["a", "b"]) ∧
    (SelectDatasetToModify demoTwoLoaded "zz").state = demoTwoLoaded ∧
    (SelectDatasetToModify demoTwoLoaded "a").state.active_dataset = "a" :=
  ⟨by decide,
   (select_fails_iff_unregistered demoParams demoExtension demoParent demoTwoDatasets
      demoTwoLoaded ["a", "b"] "zz" (by decide)).1,
   (select_fails_iff_unregistered demoParams demoExtension demoParent demoTwoDatasets
      demoTwoLoaded ["a", "b"] "zz" (by decide)).2.1 (by decide),
   ((select_fails_iff_unregistered demoParams demoExtension demoParent demoTwoDatasets
      demoTwoLoaded ["a", "b"] "a" (by decide)).2.2 (by decide)).2⟩

/-! ## Extension filter -/

theorem toNat_ofNat_small (n : Nat) (h : n < 0xd800) : (Char.ofNat n).toNat = n := by
  have hv : n.isValidChar := Or.inl h
  unfold Char.ofNat
  rw [dif_pos hv]
  simp [Char.ofNatAux, Char.toNat, UInt32.toNat]

theorem toLower_idem (c : Char) : c.toLower.toLower = c.toLower := by
  unfold Char.toLower
  simp only
  split
  · next h =>
    rw [toNat_ofNat_small _ (by omega)]
    rw [if_neg (by omega)]
  · next h => rfl

theorem toLower_toUpper (c : Char) : c.toUpper.toLower = c.toLower := by
  unfold Char.toLower Char.toUpper
  simp only
  split
  · next h =>
    rw [toNat_ofNat_small _ (by omega)]
    rw [if_pos (by omega), if_neg (by omega)]
    have : c.toNat - 32 + 32 = c.toNat := by omega
    rw [this, Char.ofNat_toNat]
  · next h => rfl

theorem map_toLower_of_sameLetter (a b : List Char) (h : List.Forall₂ sameLetter a b) :
    a.map Char.toLower = b.map Char.toLower := by
  induction h with
  | nil => rfl
  | cons hcd _ ih => simp only [List.map_cons, ih]; rw [hcd]

theorem sameLetter_map_toLower (a : List Char) :
    List.Forall₂ sameLetter a (a.map Char.toLower) := by
  induction a with
  | nil => exact List.Forall₂.nil
  | cons c rest ih => exact List.Forall₂.cons (toLower_idem c).symm ih

theorem sameLetter_of_caseVariant (c d : Char) (h : caseVariant c d) : sameLetter c d := by
  unfold sameLetter
  rcases h with rfl | rfl | rfl
  · rfl
  · exact (toLower_toUpper c).symm
  · exact (toLower_idem c).symm

theorem accepted_lower : ∀ e ∈ extension_accepted, lowerExt e = e := by
  decide

/-- C16. `IsImage` accepts a path exactly when its extension, compared
case-insensitively, is one of `.jpg .jpeg .png .bmp .tiff .webp`; a path whose
extension differs from it only in the case of letters gets the same answer. -/
theorem isImage_case_insensitive (ext : String → String) (path : String) :
    (IsImage ext path = true ↔ ∃ e ∈ extension_accepted, sameIgnoringCase (ext path) e) ∧
    (∀ path2, List.Forall₂ caseVariant (ext path).data (ext path2).data →
      IsImage ext path2 = IsImage ext path) := by
  constructor
  · unfold IsImage
    simp only [decide_eq_true_eq]
    constructor
    · intro h
      exact ⟨lowerExt (ext path), h, sameLetter_map_toLower _⟩
    · rintro ⟨e, he, hsame⟩
      have h1 := map_toLower_of_sameLetter _ _ hsame
      have h2 : lowerExt (ext path) = lowerExt e := by
        unfold lowerExt; rw [h1]
      rw [h2, accepted_lower e he]
      exact he
  · intro path2 hv
    have hs : List.Forall₂ sameLetter (ext path).data (ext path2).data :=
      hv.imp (fun c d h => sameLetter_of_caseVariant c d h)
    have h1 := map_toLower_of_sameLetter _ _ hs
    unfold IsImage lowerExt
    rw [h1]

/-- C16, at concrete paths: `.JpEg` is accepted as `.jpeg` is, `.jpegx` is
not. -/
theorem isImage_case_insensitive_witness :
    IsImage demoExtension "x/y.JpEg" = IsImage demoExtension "x/y.jpeg" ∧
    IsImage demoExtension "x/y.jpeg" = true ∧ IsImage demoExtension "x/y.jpegx" = false :=
  ⟨(isImage_case_insensitive demoExtension "x/y.jpeg").2 "x/y.JpEg"
     (by
      show List.Forall₂ caseVariant ['.', 'j', 'p', 'e', 'g'] ['.', 'J', 'p', 'E', 'g']
      refine List.Forall₂.cons (Or.inl rfl) (List.Forall₂.cons (Or.inr (Or.inl (by decide)))
        (List.Forall₂.cons (Or.inl rfl) (List.Forall₂.cons (Or.inr (Or.inl (by decide)))
        (List.Forall₂.cons (Or.inl rfl) List.Forall₂.nil))))),
   by decide, by decide⟩

/-! ## Sampler: the end of the shuffled range -/

theorem getElem?_swapAt_other (xs : List Nat) (i j k : Nat) (hi : i ≠ k) (hj : j ≠ k) :
    (swapAt xs i j)[k]? = xs[k]? := by
  unfold swapAt
  rw [List.getElem?_set, if_neg hj, List.getElem?_set, if_neg hi]

/-- The exchange loop at positions `i, ..., i + steps - 1` leaves every
position from `i + steps` on as it was. -/
theorem shuffleFrom_fixed (steps : Nat) :
    ∀ (i : Nat) (xs rng ys rest : List Nat) (k : Nat), i + steps ≤ k →
      shuffleFrom i steps xs rng = some (ys, rest) → ys[k]? = xs[k]? := by
  induction steps with
  | zero =>
    intro i xs rng ys rest k _ h
    simp only [shuffleFrom, Option.some.injEq, Prod.mk.injEq] at h
    rw [← h.1]
  | succ steps ih =>
    intro i xs rng ys rest k hk h
    cases rng with
    | nil => simp [shuffleFrom] at h
    | cons r rng =>
      simp only [shuffleFrom] at h
      have hr : r % (i + 1) < i + 1 := Nat.mod_lt r (Nat.succ_pos i)
      rw [ih (i + 1) _ rng ys rest k (by omega) h]
      exact getElem?_swapAt_other xs i _ k (by omega) (by omega)

/-- The small-population branch leaves the last index in the last place. -/
theorem small_branch_last_fixed (B : Nat) (each_size : List Nat) (t : Nat) (rng b : List Nat)
    (h20 : t ≤ 20) (h : GetRandomSampleClassIndex B each_size t rng = some b) :
    b[t - 1]? = some (t - 1) := by
  unfold GetRandomSampleClassIndex at h
  simp only [h20, if_true] at h
  split at h
  · cases h
  · next h0 =>
    simp only [Option.map_eq_some', Prod.exists, exists_and_right, exists_eq_right] at h
    obtain ⟨rest, h⟩ := h
    unfold shuffle at h
    have hpos : 0 < t := Nat.pos_of_ne_zero h0
    have hlt : t - 1 < t := by omega
    by_cases h1 : t = 1
    · subst h1
      simp only [List.length_range, shuffleFrom, Option.some.injEq, Prod.mk.injEq] at h
      rw [← h.1]
      rfl
    · have hle : 1 + ((List.range t).length - 1 - 1) ≤ t - 1 := by
        rw [List.length_range]; omega
      rw [shuffleFrom_fixed _ 1 _ rng b rest (t - 1) hle h, List.getElem?_range hlt]

/-- C18, the code at the failing input: for a total population of 3 no shuffle
outcome puts anything but index 2 at position 2, so of the six permutations of
`[0, 3)` only two can be returned. -/
theorem shuffle_leaves_last_index :
    ¬ ∃ rng b, GetRandomSampleClassIndex 4 [3] 3 rng = some b ∧ b[2]? ≠ some 2 := by
  rintro ⟨rng, b, h, hne⟩
  exact hne (small_branch_last_fixed 4 [3] 3 rng b (by decide) h)

/-! ## CSV rectangularity -/

/-- The reading loop on a table that has a first row: it returns the table
with one row per remaining line when every remaining line has as many columns
as the first row, and throws otherwise. -/
theorem csvLoop_cons (path : String) (lines : List String) :
    ∀ (front : List String) (more : List (List String)),
      csvLoop path lines (front :: more)
        = if ∀ line ∈ lines, (getlines ',' line).length = front.length then
            Res.ok (front :: more ++ lines.map (getlines ','))
          else
            Res.threw ("Error ReadCSVFile, the file \"" ++ path
              ++ "\" has different columns sizes") := by
  induction lines with
  | nil => intro front more; simp [csvLoop]
  | cons line rest ih =>
    intro front more
    simp only [csvLoop, List.cons_append, List.head?_cons]
    have hlast : (front :: (more ++ [getlines ',' line])).getLast?
        = some (getlines ',' line) := by
      rw [← List.cons_append, List.getLast?_append]
      simp
    rw [hlast]
    simp only
    by_cases hl : front.length = (getlines ',' line).length
    · rw [if_neg (not_not.mpr hl), ih front (more ++ [getlines ',' line])]
      by_cases hall : ∀ l ∈ rest, (getlines ',' l).length = front.length
      · have hall2 : ∀ l ∈ line :: rest, (getlines ',' l).length = front.length := by
          intro l hm
          rcases List.mem_cons.mp hm with rfl | hm
          · exact hl.symm
          · exact hall l hm
        rw [if_pos hall, if_pos hall2]
        simp
      · have hall2 : ¬ ∀ l ∈ line :: rest, (getlines ',' l).length = front.length :=
          fun h => hall (fun l hm => h l (List.mem_cons_of_mem _ hm))
        rw [if_neg hall, if_neg hall2]
    · have hall2 : ¬ ∀ l ∈ line :: rest, (getlines ',' l).length = front.length :=
        fun h => hl (h line (List.mem_cons_self _ _)).symm
      rw [if_pos hl, if_neg hall2]

/-- The reading loop on the empty table and a first line. -/
theorem csvLoop_nil (path : String) (first : String) (rest : List String) :
    csvLoop path (first :: rest) []
      = if ∀ line ∈ rest, (getlines ',' line).length = (getlines ',' first).length then
          Res.ok ((first :: rest).map (getlines ','))
        else
          Res.threw ("Error ReadCSVFile, the file \"" ++ path
            ++ "\" has different columns sizes") := by
  simp only [csvLoop, List.nil_append, List.head?_cons, List.getLast?_singleton,
    ne_eq, not_true_eq_false, if_false]
  rw [csvLoop_cons]
  simp

theorem readCSV_ok (path : String) (f : FileStatus) (data : List (List String))
    (h : ReadCSVFile path f = Res.ok data) :
    csvLoop path (getlines '\n' f.content) [] = Res.ok data := by
  unfold ReadCSVFile at h
  split at h
  · cases h
  · split at h
    · simp only at h
      split at h
      · split at h
        · cases h
        · exact h
      · cases h
    · cases h

theorem colLoop_defined {T : Type} (conv : String → Except String T) (i : Nat)
    (rows : List (List String)) (h : ∀ row ∈ rows, i < row.length) :
    (∃ column, colLoop conv i rows = Res.ok column ∧ column.length = rows.length) ∨
    (∃ what, colLoop conv i rows = Res.threw what) := by
  induction rows with
  | nil => exact Or.inl ⟨[], rfl, rfl⟩
  | cons row rest ih =>
    have hi : i < row.length := h row (List.mem_cons_self _ _)
    simp only [colLoop, List.getElem?_eq_getElem hi]
    cases hc : conv row[i] with
    | error what => exact Or.inr ⟨what, rfl⟩
    | ok v =>
      simp only
      rcases ih (fun r hr => h r (List.mem_cons_of_mem _ hr)) with ⟨col, hcol, hlen⟩ | ⟨w, hw⟩
      · rw [hcol]
        exact Or.inl ⟨v :: col, rfl, by simp [hlen]⟩
      · rw [hw]
        exact Or.inr ⟨w, rfl⟩

theorem modifyHead_append_cons (tok : List Char) (c : Char) (X : List (List Char)) :
    List.modifyHead (fun t => tok ++ t) (List.modifyHead (List.cons c) X)
      = List.modifyHead (fun t => (tok ++ [c]) ++ t) X := by
  cases X with
  | nil => rfl
  | cons x xs => simp [List.modifyHead]

theorem dropEmptyLast_cons (x : String) (ys : List String) (h : ys ≠ []) :
    dropEmptyLast (x :: ys) = x :: dropEmptyLast ys := by
  unfold dropEmptyLast
  cases ys with
  | nil => exact absurd rfl h
  | cons y zs =>
    rw [List.getLast?_cons_cons]
    split
    · rw [List.dropLast_cons₂]
    · rfl

/-- The tokens `std::getline` reads are the pieces between the delimiters,
without a last piece that is empty. -/
theorem getlineLoop_eq (delim : Char) (cs : List Char) :
    ∀ tok, getlineLoop delim cs tok
      = dropEmptyLast ((List.modifyHead (fun t => tok ++ t)
          (cs.splitOn delim)).map String.mk) := by
  induction cs with
  | nil =>
    intro tok
    have h0 : ([] : List Char).splitOn delim = [[]] := rfl
    rw [h0]
    simp only [getlineLoop, List.modifyHead, List.append_nil, List.map_cons, List.map_nil,
      dropEmptyLast, List.getLast?_singleton, Option.some.injEq, List.dropLast_single]
    by_cases ht : tok = []
    · subst ht
      rw [if_pos rfl, if_pos rfl]
    · have hne : ¬ (String.mk tok = "") := by
        intro h
        apply ht
        have := congrArg String.data h
        simpa using this
      rw [if_neg ht, if_neg hne]
  | cons c rest ih =>
    intro tok
    have hsplit : (c :: rest).splitOn delim
        = if (c == delim) = true then [] :: rest.splitOn delim
          else List.modifyHead (List.cons c) (rest.splitOn delim) :=
      List.splitOnP_cons _ c rest
    rw [hsplit]
    simp only [getlineLoop]
    by_cases hc : c = delim
    · rw [if_pos hc, if_pos (by simp [hc])]
      simp only [List.modifyHead, List.append_nil, List.map_cons]
      have hne : (rest.splitOn delim).map String.mk ≠ [] := by
        intro h
        have := List.map_eq_nil_iff.mp h
        exact List.splitOnP_ne_nil _ rest this
      rw [dropEmptyLast_cons _ _ hne, ih []]
      have hid : List.modifyHead (fun t => ([] : List Char) ++ t) (rest.splitOn delim)
          = rest.splitOn delim := by
        cases rest.splitOn delim with
        | nil => rfl
        | cons x xs => simp [List.modifyHead]
      rw [hid]
    · rw [if_neg hc, if_neg (by simp [hc]), modifyHead_append_cons, ih (tok ++ [c])]

theorem getlines_eq (delim : Char) (text : String) :
    getlines delim text = dropEmptyLast ((text.data.splitOn delim).map String.mk) := by
  unfold getlines
  rw [getlineLoop_eq]
  have hid : List.modifyHead (fun t => ([] : List Char) ++ t) (text.data.splitOn delim)
      = text.data.splitOn delim := by
    cases text.data.splitOn delim with
    | nil => rfl
    | cons x xs => simp [List.modifyHead]
  rw [hid]

/-- The row `ReadCSVFile` builds from a line: its comma-split fields, without
a last field that is empty. -/
theorem getlines_comma (line : String) :
    getlines ',' line = dropEmptyLast (commaSplit line) :=
  getlines_eq ',' line

/-- The lines `ReadCSVFile` reads are the lines of the file. -/
theorem getlines_newline (content : String) : getlines '\n' content = textLines content :=
  getlines_eq '\n' content

theorem getlines_comma_length (line : String) :
    (getlines ',' line).length = columnCount line := by
  rw [getlines_comma]
  rfl

/-- C19, the claim as worded fails. The file `a,b` / `c,d,` has two lines; the
second has three comma-split fields, the first has two; `ReadCSVFile` does not
reject it and returns two rows of two columns. -/
theorem csv_trailing_comma_accepted :
    textLines demoCsvTrailing.content = ["a,b", "c,d,"] ∧
    commaSplit "a,b" = ["a", "b"] ∧ commaSplit "c,d," = ["c", "d", ""] ∧
    (commaSplit "c,d,").length ≠ (commaSplit "a,b").length ∧
    ReadCSVFile "labels.csv" demoCsvTrailing = Res.ok [["a", "b"], ["c", "d"]] :=
  ⟨by decide, by decide, by decide, by decide, by decide⟩

/-- C19, amended. When `ReadCSVFile` returns a table, every row has as many
columns as the first row, and the row of a line holds its comma-split fields
without a last field that is empty. The column count of a line is its
comma-split count, less one when the line is empty or ends in a comma: a
readable `.csv` file with a line whose column count differs from that of the
first line is rejected with the "different columns sizes" error, and a file
whose lines all have the column count of the first line is read. On a returned
table with a first row, `Col(i)` with `i` below the width of the first row reads
every row inside its bounds: it returns one value per row, or throws a
conversion error. -/
theorem csv_rectangular (path : String) (f : FileStatus) :
    (∀ data, ReadCSVFile path f = Res.ok data →
      (∀ row ∈ data, row.length = (data.headD []).length) ∧
      data = (textLines f.content).map (fun line => dropEmptyLast (commaSplit line))) ∧
    (f.present = true → f.regular = true → lowerExt f.extension = ".csv" →
      f.opens = true →
      ∀ first rest, textLines f.content = first :: rest →
        ((∃ line ∈ rest, columnCount line ≠ columnCount first) →
          ReadCSVFile path f
            = Res.threw ("Error ReadCSVFile, the file \"" ++ path
                ++ "\" has different columns sizes")) ∧
        ((∀ line ∈ rest, columnCount line = columnCount first) →
          ∃ data, ReadCSVFile path f = Res.ok data)) ∧
    (∀ (T : Type) (conv : String → Except String T) (data : List (List String)) (i : Nat),
      ReadCSVFile path f = Res.ok data → data ≠ [] → i < (data.headD []).length →
      (∃ column, Col conv data i = Res.ok column ∧ column.length = data.length) ∨
      (∃ what, Col conv data i = Res.threw what)) := by
  have hrows : ∀ data, ReadCSVFile path f = Res.ok data →
      (∀ row ∈ data, row.length = (data.headD []).length) ∧
      data = (textLines f.content).map (fun line => dropEmptyLast (commaSplit line)) := by
    intro data h
    have hl := readCSV_ok path f data h
    rw [getlines_newline] at hl
    cases hlines : textLines f.content with
    | nil =>
      rw [hlines] at hl
      simp only [csvLoop, Res.ok.injEq] at hl
      subst hl
      simp
    | cons first rest =>
      rw [hlines, csvLoop_nil] at hl
      split at hl
      · next hall =>
        simp only [Res.ok.injEq] at hl
        subst hl
        constructor
        · intro row hrow
          simp only [List.map_cons, List.headD_cons, List.mem_cons, List.mem_map] at hrow ⊢
          rcases hrow with rfl | ⟨line, hline, rfl⟩
          · rfl
          · exact hall line hline
        · apply List.map_congr_left
          intro line _
          exact getlines_comma line
      · cases hl
  refine ⟨hrows, ?_, ?_⟩
  · intro hp hr he ho first rest hlines
    constructor
    · rintro ⟨line, hline, hne⟩
      unfold ReadCSVFile
      simp only [hp, hr, he, ho, not_true_eq_false, if_false, if_true]
      rw [getlines_newline, hlines, csvLoop_nil, if_neg]
      intro hall
      apply hne
      rw [← getlines_comma_length, ← getlines_comma_length]
      exact hall line hline
    · intro hall
      unfold ReadCSVFile
      simp only [hp, hr, he, ho, not_true_eq_false, if_false, if_true]
      rw [getlines_newline, hlines, csvLoop_nil, if_pos]
      · exact ⟨_, rfl⟩
      · intro line hline
        rw [getlines_comma_length, getlines_comma_length]
        exact hall line hline
  · intro T conv data i h hne hi
    have hall := (hrows data h).1
    cases data with
    | nil => exact absurd rfl hne
    | cons front more =>
      simp only [List.headD_cons] at hi hall
      unfold Col
      simp only [ge_iff_le]
      rw [if_neg (by omega)]
      apply colLoop_defined
      intro row hrow
      rw [hall row hrow]
      exact hi

/-- C19 amended, at concrete files: a three-line file with two columns is read
and its column 1 is extracted; a file whose second line has three columns is
rejected; a file whose second line ends in a comma is read. -/
theorem csv_rectangular_witness :
    ReadCSVFile "labels.csv" demoCsv
      = Res.ok [["cat", "0"], ["dog", "1"], ["bird", "2"]] ∧
    (∀ row ∈ [["cat", "0"], ["dog", "1"], ["bird", "2"]],
      row.length = ([["cat", "0"], ["dog", "1"], ["bird", "2"]].headD []).length) ∧
    ReadCSVFile "labels.csv" demoCsvRagged
      = Res.threw ("Error ReadCSVFile, the file \"" ++ "labels.csv"
          ++ "\" has different columns sizes") ∧
    (∃ data, ReadCSVFile "labels.csv" demoCsvTrailing = Res.ok data) ∧
    Col (fun str => (Except.ok str : Except String String))
        [["cat", "0"], ["dog", "1"], ["bird", "2"]] 1 = Res.ok ["0", "1", "2"] :=
  ⟨by decide,
   ((csv_rectangular "labels.csv" demoCsv).1 _ (by decide)).1,
   ((csv_rectangular "labels.csv" demoCsvRagged).2.1 (by decide) (by decide) (by decide)
     (by decide) "cat,0" ["dog,1,x", "bird,2"] (by decide)).1
     ⟨"dog,1,x", by decide, by decide⟩,
   ((csv_rectangular "labels.csv" demoCsvTrailing).2.1 (by decide) (by decide) (by decide)
     (by decide) "a,b" ["c,d,"] (by decide)).2 (by decide),
   by decide⟩

/-! ## Background loop: path lookup -/

theorem decrementBack_append (front : List Nat) (c : Nat) :
    decrementBack (front ++ [c]) = some (front ++ [sub32 c 1]) := by
  induction front with
  | nil => rfl
  | cons x rest ih =>
    cases hr : rest ++ [c] with
    | nil => simp at hr
    | cons y more =>
      simp only [List.cons_append, hr, decrementBack]
      rw [← hr, ih]
      rfl

theorem foldl_add32_exact (sizes : List Nat) :
    ∀ a, a + sizes.sum < 2 ^ 32 → sizes.foldl add32 a = a + sizes.sum := by
  induction sizes with
  | nil => intro a _; simp
  | cons x rest ih =>
    intro a h
    simp only [List.sum_cons] at h
    simp only [List.foldl_cons, List.sum_cons]
    rw [add32_exact a x (by omega), ih (a + x) (by omega)]
    omega

theorem sub32_zero (a : Nat) (h : a < 2 ^ 32) : sub32 a 0 = a := by
  unfold sub32
  omega

theorem sub32_one_exact (a : Nat) (h1 : 1 ≤ a) (h : a < 2 ^ 32) : sub32 a 1 = a - 1 := by
  unfold sub32
  omega

/-- On the stratified path without wrap-around, no index appended by the class
loop exceeds the sum of the counts. -/
theorem classLoop_upper (q : Nat) (sizes : List Nat) :
    ∀ prev st p1 st1, classLoop q sizes prev st = some (p1, st1) →
      prev + sizes.sum < 2 ^ 32 →
      p1 = prev + sizes.sum ∧
      ∀ x ∈ st1.batch_index, x ∈ st.batch_index ∨ x ≤ prev + sizes.sum := by
  induction sizes with
  | nil =>
    intro prev st p1 st1 h _
    simp only [classLoop, Option.some.injEq, Prod.mk.injEq] at h
    obtain ⟨h1, h2⟩ := h
    subst h1 h2
    exact ⟨by simp, fun x hx => Or.inl hx⟩
  | cons size rest ih =>
    intro prev st p1 st1 h hfit
    simp only [List.sum_cons] at hfit
    simp only [classLoop] at h
    rw [add32_exact prev size (by omega)] at h
    split at h
    · next st2 heq =>
      obtain ⟨g, hg, _, _, hmem, _⟩ := drawLoop_spec _ _ _ st st2 heq
      obtain ⟨hp, hup⟩ := ih (prev + size) st2 p1 st1 h (by omega)
      refine ⟨by rw [hp, List.sum_cons]; omega, ?_⟩
      intro x hx
      rcases hup x hx with hx2 | hx2
      · rw [hg, List.mem_append] at hx2
        rcases hx2 with hx3 | hx3
        · exact Or.inl hx3
        · right
          obtain ⟨k, hk, hxk⟩ := (hmem x hx3).2
          have hw : sub32 (prev + size) prev ≤ size := by
            have := sub32_add32_le prev size
            rwa [add32_exact prev size (by omega)] at this
          rw [hxk, add32_exact prev k (by omega), List.sum_cons]
          omega
      · right
        rw [List.sum_cons]; omega
    · cases h

/-- No index of a batch exceeds the sum of the class counts when the total
passed is that sum, and on the small-population path every index is below
it. -/
theorem sampler_le_sum (B : Nat) (each_size : List Nat) (rng b : List Nat)
    (hfit : each_size.sum < 2 ^ 32)
    (h : GetRandomSampleClassIndex B each_size each_size.sum rng = some b) :
    ∀ x ∈ b, x ≤ each_size.sum := by
  by_cases h20 : each_size.sum ≤ 20
  · intro x hx
    have hp := small_branch_perm B each_size _ rng b h20 h
    have := (hp.mem_iff).mp hx
    rw [List.mem_range] at this
    omega
  · unfold GetRandomSampleClassIndex at h
    simp only [h20, if_false] at h
    split at h
    · cases h
    · split at h
      · cases h
      · next p1 st heq =>
        simp only [Option.map_eq_some'] at h
        obtain ⟨st1, h1, h2⟩ := h
        obtain ⟨hp, hup⟩ := classLoop_upper _ each_size 0 _ p1 st heq (by omega)
        obtain ⟨g, hg, _, _, hmem, _⟩ := drawLoop_spec _ _ _ st st1 h1
        subst h2
        intro x hx
        rw [hg, List.mem_append] at hx
        rcases hx with hx | hx
        · rcases hup x hx with hx2 | hx2
          · simp at hx2
          · omega
        · obtain ⟨k, hk, hxk⟩ := (hmem x hx).2
          rw [hp, Nat.zero_add, sub32_zero _ hfit] at hk
          rw [hxk, add32_exact 0 k (by omega)]
          omega

/-- C20. For a dataset whose registered counts `c_1..c_k` have `c_k ≥ 1` and
sum `N ≥ 2`, the length of its path list, the background loop does not throw,
passes the counts with the last one decremented and the total `N - 1` to the
sampler, and every index of every batch the sampler returns is below `N`: the
lookup `_image_paths[index]` stays inside the path list. -/
theorem loaders_index_in_bounds (B : Nat) (s : Loader) (front : List Nat) (c N : Nat)
    (hsizes : s.each_class_sizes = front ++ [c]) (hlast : 1 ≤ c)
    (hsum : s.each_class_sizes.sum = N) (h2 : 2 ≤ N) (hfit : N < 2 ^ 31)
    (hpaths : (pathsOf s s.active_dataset).length = N) :
    ∃ s1 total, LoadersStart s = Res.ok (s1, total) ∧ total = N - 1 ∧
      s1.each_class_sizes = front ++ [c - 1] ∧
      ∀ rng b, GetRandomSampleClassIndex B s1.each_class_sizes total rng = some b →
        ∀ index ∈ b, index < (pathsOf s1 s1.active_dataset).length := by
  have hN : front.sum + c = N := by
    rw [← hsum, hsizes]; simp
  have hdec : decrementBack s.each_class_sizes = some (front ++ [c - 1]) := by
    rw [hsizes, decrementBack_append, sub32_one_exact c hlast (by omega)]
  have hsum1 : (front ++ [c - 1]).sum = N - 1 := by
    simp only [List.sum_append, List.sum_cons, List.sum_nil]; omega
  have htot : totalSize (front ++ [c - 1]) = N - 1 := by
    unfold totalSize
    rw [foldl_add32_exact _ 0 (by omega), hsum1]; omega
  refine ⟨{ s with each_class_sizes := front ++ [c - 1] }, N - 1, ?_, rfl, rfl, ?_⟩
  · unfold LoadersStart
    rw [hdec]
    simp only [htot]
    rw [if_neg (by omega)]
  · intro rng b hb index hidx
    show index < (pathsOf s s.active_dataset).length
    rw [hpaths]
    have hb2 : GetRandomSampleClassIndex B (front ++ [c - 1]) (front ++ [c - 1]).sum rng
        = some b := by
      rw [hsum1]; exact hb
    have := sampler_le_sum B (front ++ [c - 1]) rng b (by omega) hb2 index hidx
    omega

/-- C20, at a concrete dataset: folders of 2 and 3 images; the loop passes the
counts `[2, 2]` and the total 4, and every sampled index is below 5. -/
theorem loaders_index_in_bounds_witness :
    history demoParams demoExtension demoParent Loader.init demoOneDataset
      = some (demoOneLoaded, ["d"]) ∧
    ∃ s1 total, LoadersStart demoOneLoaded = Res.ok (s1, total) ∧ total = 5 - 1 ∧
      s1.each_class_sizes = [2] ++ [3 - 1] ∧
      ∀ rng b, GetRandomSampleClassIndex 4 s1.each_class_sizes total rng = some b →
        ∀ index ∈ b, index < (pathsOf s1 s1.active_dataset).length :=
  ⟨by decide,
   loaders_index_in_bounds 4 demoOneLoaded [2] 3 5 (by decide) (by decide) (by decide)
     (by decide) (by decide) (by decide)⟩

/-! ## Label pairing -/

theorem Put_some_labels (P : Params) (pd : String → String) (s s1 : Loader) (path : String)
    (pixels : Bytes) (hstop : s.stop_thread = false)
    (h : Put P pd s path (some pixels) = Res.ok s1) :
    labelsOf P s1 s1.active_dataset
      = (labelsOf P s s.active_dataset).set s.tail (pd path) := by
  unfold Put at h
  simp only [hstop, Bool.false_eq_true, or_false, not_lt, if_false] at h
  split at h
  · cases h
  · split at h
    · cases h
    · split at h
      · simp only [Res.ok.injEq] at h
        subst h
        unfold labelsOf
        simp only
        rw [mapFind_mapSet_same, mapIndex_fst]
        rfl
      · cases h

theorem Put_none_labels (P : Params) (pd : String → String) (s s1 : Loader) (path : String)
    (hstop : s.stop_thread = false) (h : Put P pd s path none = Res.ok s1) :
    labelsOf P s1 s1.active_dataset = labelsOf P s s.active_dataset := by
  unfold Put at h
  simp only [hstop, Bool.false_eq_true, or_false, not_lt, if_false] at h
  split at h
  · cases h
  · split at h
    · cases h
    · simp only [Res.ok.injEq] at h
      subst h
      unfold labelsOf
      simp only
      rw [mapFind_mapIndex_getD]

theorem Get_labels (P : Params) (s s1 : Loader) (ptr : Option Nat)
    (h : Get P s = Res.ok (ptr, s1)) :
    s1.label_cache = s.label_cache ∧ s1.active_dataset = s.active_dataset := by
  unfold Get at h
  split at h
  · cases h
  · split at h
    · simp only [Res.ok.injEq, Prod.mk.injEq] at h
      rw [← h.2]; exact ⟨rfl, rfl⟩
    · simp only [Res.ok.injEq, Prod.mk.injEq] at h
      rw [← h.2]; exact ⟨rfl, rfl⟩

/-- The index `head > 0 ? head - 1 : TOTAL_IMAGES - 1`, computed after `Get`
advanced `head`, is the slot `Get` drained. -/
theorem label_index_drained (cap head : Nat) (hh : head < cap) (hcap : cap < 2 ^ 32) :
    (if (head + 1) % cap > 0 then sub32 ((head + 1) % cap) 1 else sub32 cap 1) = head := by
  have hm := mod_two_range (head + 1) cap (by omega)
  rw [hm]
  by_cases hw : head + 1 < cap
  · rw [if_pos hw, if_pos (by omega), sub32_one_exact _ (by omega) (by omega)]
    omega
  · rw [if_neg hw]
    have e : head + 1 - cap = 0 := by omega
    rw [e, if_neg (by omega), sub32_one_exact _ (by omega) hcap]
    omega

/-- With three channels the constructor of `flat` reads exactly one slot. -/
theorem flat_count (P : Params) (hcolor : P.IsColor = true) (hslot : P.slotBytes < 2 ^ 32) :
    mul32 (mul32 P.IMG_HEIGHT P.IMG_WIDTH) 3 = P.slotBytes := by
  unfold Params.slotBytes Params.channels at *
  rw [if_pos hcolor] at hslot ⊢
  unfold mul32
  rw [Nat.mul_comm P.IMG_HEIGHT P.IMG_WIDTH]
  generalize P.IMG_WIDTH * P.IMG_HEIGHT = m at *
  omega

theorem GetAsAF_flat_ok (P : Params) (s : Loader) (ptr : Option Nat) (bytes : Bytes)
    (hcolor : P.IsColor = true) (hslot : P.slotBytes < 2 ^ 32)
    (h : GetAsAF_flat P s ptr = Res.ok bytes) :
    ∃ off, ptr = some off ∧ bytes = viewAt P s off := by
  cases ptr with
  | none => simp [GetAsAF_flat] at h
  | some off =>
    refine ⟨off, rfl, ?_⟩
    simp only [GetAsAF_flat, flat_count P hcolor hslot] at h
    split at h
    · simp only [Res.ok.injEq] at h
      rw [← h]
      rfl
    · cases h

/-- The label read of `GetAsAF` when it runs right after `Get`: it reads the
slot `Get` drained. -/
theorem GetAsAF_label_ok (P : Params) (s s1 s2 : Loader) (ptr : Option Nat) (label : String)
    (hcap : P.TOTAL_IMAGES < 2 ^ 32) (hstop : s.stop_thread = false)
    (hcore : RingCore P.TOTAL_IMAGES s)
    (hlen : (labelsOf P s s.active_dataset).length = P.TOTAL_IMAGES)
    (hget : Get P s = Res.ok (ptr, s1))
    (h : GetAsAF_label P s1 = Res.ok (label, s2)) :
    s2 = { s1 with label_cache :=
      (mapIndex s1.label_cache s1.active_dataset (List.replicate P.TOTAL_IMAGES "")).2 } ∧
    label = labelOf P s s.active_dataset s.head := by
  obtain ⟨hl1, ha1⟩ := Get_labels P s s1 ptr hget
  obtain ⟨_, _, _, _, hh, _, _, _⟩ := Get_ok P s s1 ptr hstop hget
  have hidx : (if s1.head > 0 then sub32 s1.head 1 else sub32 P.TOTAL_IMAGES 1)
      = s.head := by
    rw [hh, add32_one_of_lt _ _ hcore.1 hcap]
    exact label_index_drained _ _ hcore.1 hcap
  have hlt : s.head < (labelsOf P s s.active_dataset).length := by
    rw [hlen]; exact hcore.1
  have hlab : (labelsOf P s s.active_dataset)[s.head]?
      = some (labelOf P s s.active_dataset s.head) := by
    unfold labelOf
    rw [List.getD_eq_getElem?_getD, List.getElem?_eq_getElem hlt]
    rfl
  unfold GetAsAF_label at h
  cases hmi : mapIndex s1.label_cache s1.active_dataset
      (List.replicate P.TOTAL_IMAGES "") with
  | mk label_data labels1 =>
    have hdata : label_data = labelsOf P s s.active_dataset := by
      have := mapIndex_fst s1.label_cache s1.active_dataset
        (List.replicate P.TOTAL_IMAGES "")
      rw [hmi] at this
      simp only at this
      rw [this, hl1, ha1]
      rfl
    rw [hmi] at h
    simp only at h
    rw [hidx, hdata, hlab] at h
    simp only [Res.ok.injEq, Prod.mk.injEq] at h
    exact ⟨h.2.symm, h.1.symm⟩

theorem labelInv_put_none (P : Params) (pd : String → String) (s s1 : Loader)
    (path : String) (pending : List String) (hstop : s.stop_thread = false)
    (hinv : LabelInv P s pending) (h : Put P pd s path none = Res.ok s1) :
    LabelInv P s1 pending := by
  obtain ⟨hlen, hslots⟩ := hinv
  have hl := Put_none_labels P pd s s1 path hstop h
  obtain ⟨_, _, hh, _, hc, _⟩ := Put_none_ok P pd s s1 path hstop h
  refine ⟨by rw [hl]; exact hlen, ?_⟩
  intro i hi
  rw [hc] at hi
  unfold labelOf
  rw [hl, hh]
  exact hslots i hi

theorem labelInv_put_some (P : Params) (pd : String → String) (s s1 : Loader)
    (path : String) (pixels : Bytes) (pending : List String)
    (hcap : P.TOTAL_IMAGES < 2 ^ 32) (hstop : s.stop_thread = false)
    (hcore : RingCore P.TOTAL_IMAGES s) (hcount : pending.length = s.count)
    (hinv : LabelInv P s pending) (h : Put P pd s path (some pixels) = Res.ok s1) :
    LabelInv P s1 (pending ++ [pd path]) := by
  obtain ⟨hlen, hslots⟩ := hinv
  have hl := Put_some_labels P pd s s1 path pixels hstop h
  obtain ⟨hlt, _, _, _, hh, _, hc, _⟩ := Put_some_ok P pd s s1 path pixels hstop h
  obtain ⟨hhd, hcnt, htl⟩ := hcore
  have hc1 : s1.count = s.count + 1 := by rw [hc, add32_one_of_lt _ _ hlt hcap]
  have htlt : s.tail < P.TOTAL_IMAGES := by rw [htl]; exact Nat.mod_lt _ (by omega)
  refine ⟨by rw [hl, List.length_set]; exact hlen, ?_⟩
  intro i hi
  rw [hc1] at hi
  unfold labelOf
  rw [hl, hh, List.getD_eq_getElem?_getD, List.getElem?_set]
  have hm1 := mod_two_range (s.head + i) P.TOTAL_IMAGES (by omega)
  have hm2 := mod_two_range (s.head + s.count) P.TOTAL_IMAGES (by omega)
  by_cases hic : i < s.count
  · have hne : s.tail ≠ (s.head + i) % P.TOTAL_IMAGES := by
      rw [htl, hm1, hm2]; split <;> split <;> omega
    rw [if_neg hne, List.getElem?_append_left (by omega), hslots i hic]
    unfold labelOf
    rw [List.getD_eq_getElem?_getD]
  · have hieq : i = s.count := by omega
    subst hieq
    rw [← htl, if_pos rfl, if_pos (by rw [hlen]; exact htlt),
      List.getElem?_append_right (by omega), hcount]
    simp

theorem labelInv_get (P : Params) (s s1 : Loader) (ptr : Option Nat) (l : String)
    (ls : List String) (hcap : P.TOTAL_IMAGES < 2 ^ 32) (hstop : s.stop_thread = false)
    (hcore : RingCore P.TOTAL_IMAGES s) (hinv : LabelInv P s (l :: ls))
    (h : Get P s = Res.ok (ptr, s1)) :
    l = labelOf P s s.active_dataset s.head ∧
    LabelInv P { s1 with label_cache :=
      (mapIndex s1.label_cache s1.active_dataset (List.replicate P.TOTAL_IMAGES "")).2 }
      ls := by
  obtain ⟨hlen, hslots⟩ := hinv
  obtain ⟨hl1, ha1⟩ := Get_labels P s s1 ptr h
  obtain ⟨hpos, _, _, _, hh, _, hc, _⟩ := Get_ok P s s1 ptr hstop h
  obtain ⟨hhd, hcnt, _⟩ := hcore
  have hc1 : s1.count = s.count - 1 := by rw [hc, sub32_one_of_pos _ _ hpos hcnt hcap]
  have hh1 : s1.head = (s.head + 1) % P.TOTAL_IMAGES := by
    rw [hh, add32_one_of_lt _ _ hhd hcap]
  have hlabels : labelsOf P { s1 with label_cache :=
      (mapIndex s1.label_cache s1.active_dataset (List.replicate P.TOTAL_IMAGES "")).2 }
      s1.active_dataset = labelsOf P s s.active_dataset := by
    unfold labelsOf
    simp only
    rw [mapFind_mapIndex_getD, hl1, ha1]
  refine ⟨?_, ?_, ?_⟩
  · have h0 := hslots 0 hpos
    simp only [List.getElem?_cons_zero, Option.some.injEq, Nat.add_zero] at h0
    rw [Nat.mod_eq_of_lt hhd] at h0
    exact h0
  · show (labelsOf P _ s1.active_dataset).length = P.TOTAL_IMAGES
    rw [hlabels]; exact hlen
  · intro i hi
    have hi2 : i < s.count - 1 := by
      have : i < s1.count := hi
      omega
    have h1 := hslots (i + 1) (by omega)
    simp only [List.getElem?_cons_succ] at h1
    rw [h1]
    show some _ = some ((labelsOf P _ s1.active_dataset).getD ((s1.head + i)
      % P.TOTAL_IMAGES) "")
    rw [hlabels, hh1, Nat.mod_add_mod]
    have e : s.head + 1 + i = s.head + (i + 1) := by omega
    rw [e]
    rfl

theorem pairing_general (P : Params) (pd : String → String)
    (hcap : P.TOTAL_IMAGES < 2 ^ 32) (hcolor : P.IsColor = true)
    (hslot : P.slotBytes < 2 ^ 32) (calls : List LCall) :
    ∀ (s : Loader) (pending w r : List (Bytes × String)),
      FifoInv P s (pending.map Prod.fst) → SlotsFit P s →
      LabelInv P s (pending.map Prod.snd) → slotSizedL P calls →
      traceL P pd s Consumer.idle (sequential calls) = some (w, r) →
      r = (pending ++ w).take r.length := by
  induction calls with
  | nil =>
    intro s pending w r _ _ _ _ h
    simp only [sequential, traceL, Option.some.injEq, Prod.mk.injEq] at h
    obtain ⟨_, h2⟩ := h
    subst h2
    simp
  | cons call calls ih =>
    intro s pending w r hinv hfit hlab hsz h
    have hsz1 : slotSizedL P calls := fun ip px hm => hsz ip px (List.mem_cons_of_mem _ hm)
    have hstop := hinv.2.1
    cases call with
    | put path loaded =>
      simp only [sequential, traceL] at h
      split at h
      · next s1 heq =>
        simp only [Option.map_eq_some', Prod.mk.injEq] at h
        obtain ⟨⟨w1, r1⟩, ht, hw, hr⟩ := h
        simp only at hw hr
        subst hr
        cases loaded with
        | none =>
          have hinv1 := fifo_put_none P pd s s1 path _ hinv heq
          have hfit1 := slotsFit_put_none P pd s s1 path hstop hfit heq
          have hlab1 := labelInv_put_none P pd s s1 path _ hstop hlab heq
          have := ih s1 pending w1 r1 hinv1 hfit1 hlab1 hsz1 ht
          rw [← hw]
          simpa [writtenL, hstop] using this
        | some pixels =>
          have hsize := hsz path pixels (List.mem_cons_self _ _)
          have hoff := slotsFit_tail P s hfit hinv.1
          have hinv1 := fifo_put_some P pd s s1 path pixels _ hcap hoff hsize hinv heq
          have hfit1 := slotsFit_put_some P pd s s1 path pixels hcap hsize hstop hinv.1
            hfit heq
          have hcount : (pending.map Prod.snd).length = s.count := by
            have := hinv.2.2.1
            simpa using this
          have hlab1 := labelInv_put_some P pd s s1 path pixels _ hcap hstop hinv.1 hcount
            hlab heq
          have := ih s1 (pending ++ [(pixels, pd path)]) w1 r1
            (by simpa using hinv1) hfit1 (by simpa using hlab1) hsz1 ht
          rw [← hw]
          simpa [writtenL, hstop] using this
      · cases h
    | getLabelled =>
      simp only [sequential, traceL] at h
      split at h
      · next ptr s1 heq =>
        have hget : Get P s = Res.ok (ptr, s1) := by
          unfold GetAsAF_Get at heq
          split at heq
          · cases heq
          · exact heq
        split at h
        · next bytes hflat =>
          split at h
          · next label s2 hlabel =>
            simp only [Option.map_eq_some', Prod.mk.injEq] at h
            obtain ⟨⟨w1, r1⟩, ht, hw, hr⟩ := h
            simp only at hw hr
            subst hw hr
            obtain ⟨off, hptr, hbytes⟩ := GetAsAF_flat_ok P s1 ptr bytes hcolor hslot hflat
            subst hptr
            obtain ⟨hs2, hlab2⟩ := GetAsAF_label_ok P s s1 s2 (some off) label hcap hstop
              hinv.1 hlab.1 hget hlabel
            cases pending with
            | nil =>
              have hpos := (Get_ok P s s1 (some off) hstop hget).1
              have := hinv.2.2.1
              simp only [List.map_nil, List.length_nil] at this
              omega
            | cons pl ps =>
              obtain ⟨p, l⟩ := pl
              have hoff := slotsFit_head P s hfit hinv.1
              obtain ⟨hres, hinv1⟩ := fifo_get P s s1 (some off) p (ps.map Prod.fst) hcap
                hoff hinv hget
              have hfit1 := slotsFit_get P s s1 (some off) hcap hstop hinv.1 hfit hget
              obtain ⟨hl, hlab1⟩ := labelInv_get P s s1 (some off) l (ps.map Prod.snd) hcap
                hstop hinv.1 hlab hget
              subst hs2
              have hinv2 : FifoInv P { s1 with label_cache :=
                  (mapIndex s1.label_cache s1.active_dataset
                    (List.replicate P.TOTAL_IMAGES "")).2 } (ps.map Prod.fst) := hinv1
              have hfit2 : SlotsFit P { s1 with label_cache :=
                  (mapIndex s1.label_cache s1.active_dataset
                    (List.replicate P.TOTAL_IMAGES "")).2 } := hfit1
              have := ih _ ps w1 r1 hinv2 hfit2 hlab1 hsz1 ht
              have hview : viewAt P s1 off = p := by
                simp only [Option.map_some', Option.some.injEq] at hres
                exact hres
              rw [hbytes, hview, hlab2, ← hl]
              simp only [List.length_cons, List.cons_append, List.take_succ_cons]
              rw [← this]
          · cases h
        · cases h
      · cases h

/-- Extent of the pairing: with three channels, from `head = tail = count = 0`
with the stop flag clear, in every run in which the calls follow one another
(no `Put` runs between the first and the last statement of a `GetAsAF` call) and
every step returns, the `j`-th `GetAsAF` returns the bytes of the `j`-th
successful `Put` with the label this same `Put` recorded, also when the drained
slot is the last one. -/
theorem label_pairing_sequential (P : Params) (pd : String → String) (s0 : Loader)
    (calls : List LCall) (w r : List (Bytes × String))
    (hcolor : P.IsColor = true) (hslot : P.slotBytes < 2 ^ 32)
    (hcap1 : 1 ≤ P.TOTAL_IMAGES) (hcap : P.TOTAL_IMAGES < 2 ^ 32)
    (hcache : cacheLength s0 = P.allocation)
    (hlabels : (labelsOf P s0 s0.active_dataset).length = P.TOTAL_IMAGES)
    (hhead : s0.head = 0) (htail : s0.tail = 0) (hcount : s0.count = 0)
    (hstop : s0.stop_thread = false) (hsz : slotSizedL P calls)
    (htrace : traceL P pd s0 Consumer.idle (sequential calls) = some (w, r)) :
    ∀ j, j < r.length →
      ∃ pixels label, w[j]? = some (pixels, label) ∧ r[j]? = some (pixels, label) := by
  have hinv : FifoInv P s0 (([] : List (Bytes × String)).map Prod.fst) := by
    refine ⟨⟨by omega, by omega, ?_⟩, hstop, by rw [hcount]; rfl, ?_⟩
    · rw [hhead, htail, hcount]; simp
    · intro i hi; omega
  have hfit : SlotsFit P s0 := by
    refine ⟨by rw [hcache]; exact allocation_lt P, Or.inr ?_⟩
    rw [hhead, htail, hcount]
    exact ⟨rfl, by simp⟩
  have hlab : LabelInv P s0 (([] : List (Bytes × String)).map Prod.snd) := by
    refine ⟨hlabels, ?_⟩
    intro i hi; omega
  have hr := pairing_general P pd hcap hcolor hslot calls s0 [] w r hinv hfit hlab hsz htrace
  simp only [List.nil_append] at hr
  have hlen : r.length ≤ w.length := by
    have := congrArg List.length hr
    simp only [List.length_take] at this
    omega
  intro j hj
  have hjw : j < w.length := by omega
  refine ⟨w[j].1, w[j].2, List.getElem?_eq_getElem hjw, ?_⟩
  rw [hr, List.getElem?_take]
  simp [hj, List.getElem?_eq_getElem hjw]

/-- C12, the code at the failing runs. Two slots of three bytes, ring full with
the images of folders `a` and `b`: the consumer's `GetAsAF` gets slot 0 from
`Get` and copies its bytes `[1, 2, 3]` (the image of `a`); the producer's
`Put("c/z")` then refills slot 0 and records `c` there; the label read that
follows returns `c`, not `a`. When the same calls follow one another the labels
are `a`, `b`, `c`. With one channel, `flat` reads `IMG_HEIGHT * IMG_WIDTH * 3 = 6`
bytes from slot 0 of a cache of 4 bytes: the read leaves the cache. -/
theorem label_read_after_unlock :
    traceL demoColorParams demoParent demoColorStart Consumer.idle demoRace
      = some ([([1, 2, 3], "a"), ([4, 5, 6], "b"), ([7, 8, 9], "c")], [([1, 2, 3], "c")]) ∧
    traceL demoColorParams demoParent demoColorStart Consumer.idle (sequential demoLCalls)
      = some ([([1, 2, 3], "a"), ([4, 5, 6], "b"), ([7, 8, 9], "c")],
              [([1, 2, 3], "a"), ([4, 5, 6], "b"), ([7, 8, 9], "c")]) ∧
    Put demoParams demoParent demoStart "a/x" (some [1, 2]) = Res.ok demoFilled ∧
    GetAsAF_Get demoParams demoFilled = Res.ok (some 0, demoDrained) ∧
    GetAsAF_flat demoParams demoDrained (some 0) = Res.undefined ∧
    traceL demoParams demoParent demoStart Consumer.idle demoGray = none :=
  ⟨by decide, by decide, by decide, by decide, by decide, by decide⟩

/-! ## Slots and the 32-bit offset -/

theorem slotOffset_lt (P : Params) (i : Nat) : P.slotOffset i < 2 ^ 32 := by
  unfold Params.slotOffset mul32
  exact Nat.mod_lt _ (by norm_num)

theorem allocation_exact (P : Params) (hfit : P.TOTAL_IMAGES * P.slotBytes < 2 ^ 32) :
    P.allocation = P.TOTAL_IMAGES * P.slotBytes := by
  unfold Params.allocation
  rw [mul32_chain]
  have e : P.TOTAL_IMAGES * P.IMG_WIDTH * P.IMG_HEIGHT * P.channels
      = P.TOTAL_IMAGES * P.slotBytes := by
    unfold Params.slotBytes; ring
  rw [e]
  exact Nat.mod_eq_of_lt hfit

/-- Every slot has its exact offset and lies inside the allocation exactly when
the size of the whole cache fits 32 bits. -/
theorem slots_inside_iff (P : Params) (hcap1 : 1 ≤ P.TOTAL_IMAGES) :
    (∀ i, i < P.TOTAL_IMAGES →
      P.slotOffset i = i * P.slotBytes ∧ P.slotOffset i + P.slotBytes ≤ P.allocation)
    ↔ P.TOTAL_IMAGES * P.slotBytes < 2 ^ 32 := by
  constructor
  · intro h
    obtain ⟨h1, h2⟩ := h (P.TOTAL_IMAGES - 1) (by omega)
    have ha := allocation_lt P
    have e : P.TOTAL_IMAGES * P.slotBytes
        = (P.TOTAL_IMAGES - 1) * P.slotBytes + P.slotBytes := by
      have : P.TOTAL_IMAGES = (P.TOTAL_IMAGES - 1) + 1 := by omega
      nth_rewrite 1 [this]
      rw [Nat.succ_mul]
    rw [e, ← h1]
    omega
  · intro hfit i hi
    have h1 := slotOffset_exact P i hi hfit
    refine ⟨h1, ?_⟩
    rw [h1, allocation_exact P hfit]
    have := Nat.mul_le_mul_right P.slotBytes (Nat.succ_le_of_lt hi)
    rw [Nat.succ_mul] at this
    exact this

/-- C22, the code at the failing input `LanternImageLoader<1024, 2048, 2048,
true>`: the 32-bit offset of slot 512 is `2 ^ 31`, not the exact product
`3 * 2 ^ 31`; `allocation` is 0, so not even slot 0, of 12582912 bytes, lies
inside it. -/
theorem slot_offset_wraps :
    demoLargeParams.slotOffset 512 = 2147483648 ∧
    512 * demoLargeParams.IMG_WIDTH * demoLargeParams.IMG_HEIGHT * demoLargeParams.channels
      = 6442450944 ∧
    demoLargeParams.allocation = 0 ∧ demoLargeParams.slotBytes = 12582912 ∧
    ¬ (demoLargeParams.slotOffset 0 + demoLargeParams.slotBytes
        ≤ demoLargeParams.allocation) := by
  decide

/-! ## Sampler: the draw loops can always go on -/

/-- A draw-and-reject loop that has ended is not affected by later engine
outputs. -/
theorem drawFresh_mono (lo hi : Nat) (batch seen ext : List Nat) (rng : List Nat) :
    ∀ st, drawFresh lo hi batch seen rng = some st →
      drawFresh lo hi batch seen (rng ++ ext) = some (st.more ext) := by
  induction rng with
  | nil => intro st h; simp [drawFresh] at h
  | cons r rng ih =>
    intro st h
    simp only [drawFresh, List.cons_append] at h ⊢
    split at h
    · next hin => rw [if_pos hin]; exact ih st h
    · next hnot =>
      rw [if_neg hnot]
      simp only [Option.some.injEq] at h
      subst h
      rfl

/-- A draw-and-reject loop that is still running when the engine outputs are
used up goes on with the next outputs. -/
theorem drawFresh_none_append (lo hi : Nat) (batch seen ext : List Nat) (rng : List Nat)
    (h : drawFresh lo hi batch seen rng = none) :
    drawFresh lo hi batch seen (rng ++ ext) = drawFresh lo hi batch seen ext := by
  induction rng with
  | nil => rfl
  | cons r rng ih =>
    simp only [drawFresh, List.cons_append] at h ⊢
    split at h
    · next hin => rw [if_pos hin]; exact ih h
    · cases h

/-- With an index of the range not yet chosen, the draw-and-reject loop ends
after suitable further engine outputs, whatever was drawn so far. -/
theorem drawFresh_extend (lo hi : Nat) (batch seen : List Nat) (x : Nat)
    (hx : x ∉ seen) (hrange : ∃ k, k ≤ sub32 hi lo ∧ x = add32 lo k) (rng : List Nat) :
    ∃ ext st, drawFresh lo hi batch seen (rng ++ ext) = some st := by
  cases h : drawFresh lo hi batch seen rng with
  | some st => exact ⟨[], st, by rw [List.append_nil]; exact h⟩
  | none =>
    obtain ⟨k, hk, hxk⟩ := hrange
    refine ⟨[k], { batch_index := batch ++ [x], already_add := x :: seen, rng := [] }, ?_⟩
    rw [drawFresh_none_append _ _ _ _ _ _ h]
    have hu : uniformInt lo hi k = x := by
      unfold uniformInt
      rw [Nat.mod_eq_of_lt (by omega), hxk]
    simp only [drawFresh, hu, if_neg hx]

theorem drawLoop_mono (lo hi : Nat) (ext : List Nat) (n : Nat) :
    ∀ st st1, drawLoop lo hi n st = some st1 →
      drawLoop lo hi n (st.more ext) = some (st1.more ext) := by
  induction n with
  | zero =>
    intro st st1 h
    simp only [drawLoop, Option.some.injEq] at h ⊢
    rw [h]
  | succ n ih =>
    intro st st1 h
    simp only [drawLoop] at h ⊢
    split at h
    · next st2 heq =>
      have := drawFresh_mono lo hi st.batch_index st.already_add ext st.rng st2 heq
      show (match drawFresh lo hi st.batch_index st.already_add (st.rng ++ ext) with
        | some st1 => drawLoop lo hi n st1
        | none => none) = _
      rw [this]
      exact ih st2 st1 h
    · cases h

theorem classLoop_mono (q : Nat) (ext : List Nat) (sizes : List Nat) :
    ∀ prev st p1 st1, classLoop q sizes prev st = some (p1, st1) →
      classLoop q sizes prev (st.more ext) = some (p1, st1.more ext) := by
  induction sizes with
  | nil =>
    intro prev st p1 st1 h
    simp only [classLoop, Option.some.injEq, Prod.mk.injEq] at h ⊢
    exact ⟨h.1, by rw [h.2]⟩
  | cons size rest ih =>
    intro prev st p1 st1 h
    simp only [classLoop] at h ⊢
    split at h
    · next st2 heq =>
      rw [drawLoop_mono _ _ ext _ st st2 heq]
      exact ih _ st2 p1 st1 h
    · cases h

theorem more_more (st : Sampling) (a b : List Nat) :
    (st.more a).more b = st.more (a ++ b) := by
  simp [Sampling.more, List.append_assoc]

/-- With at least `n` indices of the range not yet chosen, `n` draws end after
suitable further engine outputs, whatever was drawn so far. -/
theorem drawLoop_extend (lo hi : Nat) (n : Nat) :
    ∀ (st : Sampling) (pool : List Nat), FreePool lo hi st.already_add pool →
      n ≤ pool.length → ∃ ext st1, drawLoop lo hi n (st.more ext) = some st1 := by
  induction n with
  | zero =>
    intro st pool _ _
    exact ⟨[], _, rfl⟩
  | succ n ih =>
    intro st pool hpool hlen
    obtain ⟨hnd, hfree⟩ := hpool
    cases pool with
    | nil => simp at hlen
    | cons x pool1 =>
      obtain ⟨hx, hxr⟩ := hfree x (List.mem_cons_self _ _)
      obtain ⟨ext1, st2, h2⟩ :=
        drawFresh_extend lo hi st.batch_index st.already_add x hx hxr st.rng
      obtain ⟨y, _, hseen, _, _⟩ := drawFresh_spec _ _ _ _ _ st2 h2
      have hpool2 : FreePool lo hi st2.already_add ((x :: pool1).erase y) := by
        refine ⟨hnd.erase y, ?_⟩
        intro z hz
        have hz2 := (List.Nodup.mem_erase_iff hnd).mp hz
        obtain ⟨hz3, hz4⟩ := hfree z hz2.2
        refine ⟨?_, hz4⟩
        rw [hseen]
        simp only [List.mem_cons, not_or]
        exact ⟨hz2.1, hz3⟩
      have hlen2 : n ≤ ((x :: pool1).erase y).length := by
        have hle := List.length_erase y (x :: pool1)
        split at hle <;> omega
      obtain ⟨ext2, st1, h1⟩ := ih st2 _ hpool2 hlen2
      refine ⟨ext1 ++ ext2, st1, ?_⟩
      have hm := drawFresh_mono lo hi st.batch_index st.already_add ext2 _ st2 h2
      rw [List.append_assoc] at hm
      show (match drawFresh lo hi st.batch_index st.already_add (st.rng ++ (ext1 ++ ext2)) with
        | some st1 => drawLoop lo hi n st1
        | none => none) = _
      rw [hm]
      exact h1

theorem drawLoop_seen_length (lo hi : Nat) (n : Nat) :
    ∀ st st1, drawLoop lo hi n st = some st1 →
      st1.already_add.length = st.already_add.length + n := by
  induction n with
  | zero =>
    intro st st1 h
    simp only [drawLoop, Option.some.injEq] at h
    rw [← h, Nat.add_zero]
  | succ n ih =>
    intro st st1 h
    simp only [drawLoop] at h
    split at h
    · next st2 heq =>
      obtain ⟨y, _, hseen, _, _⟩ := drawFresh_spec _ _ _ _ _ st2 heq
      have := ih st2 st1 h
      rw [this, hseen, List.length_cons]
      omega
    · cases h

theorem classLoop_seen_length (q : Nat) (sizes : List Nat) :
    ∀ prev st p1 st1, classLoop q sizes prev st = some (p1, st1) →
      st1.already_add.length = st.already_add.length + sizes.length * q := by
  induction sizes with
  | nil =>
    intro prev st p1 st1 h
    simp only [classLoop, Option.some.injEq, Prod.mk.injEq] at h
    rw [← h.2]
    simp
  | cons size rest ih =>
    intro prev st p1 st1 h
    simp only [classLoop] at h
    split at h
    · next st2 heq =>
      have h1 := drawLoop_seen_length _ _ _ st st2 heq
      have h2 := ih _ st2 p1 st1 h
      rw [h2, h1, List.length_cons, Nat.succ_mul]
      omega
    · cases h

/-- The indices `prev + 1, ..., prev + size` of a class's draw range
`[prev, prev + size]` are free as long as nothing above `prev` was chosen. -/
theorem class_pool (prev size : Nat) (seen : List Nat)
    (hfit : prev + size < 2 ^ 32) (hseen : ∀ x ∈ seen, x ≤ prev) :
    FreePool prev (add32 prev size) seen ((List.range size).map (fun j => prev + 1 + j)) := by
  constructor
  · refine (List.nodup_range size).map ?_
    intro a b hab
    simp only at hab
    omega
  · intro x hx
    obtain ⟨j, hj, rfl⟩ := List.mem_map.mp hx
    rw [List.mem_range] at hj
    constructor
    · intro hin
      have := hseen _ hin
      omega
    · refine ⟨j + 1, ?_, ?_⟩
      · rw [add32_exact prev size hfit]
        unfold sub32
        omega
      · rw [add32_exact prev (j + 1) (by omega)]
        omega

/-- With every class at least as large as the per-class quota `q`, the class
loop ends after suitable further engine outputs, whatever was drawn so far. -/
theorem classLoop_extend (q : Nat) (sizes : List Nat) :
    ∀ prev (st : Sampling), (∀ x ∈ st.already_add, x ≤ prev) →
      prev + sizes.sum < 2 ^ 32 → (∀ c ∈ sizes, q ≤ c) →
      ∃ ext p1 st1, classLoop q sizes prev (st.more ext) = some (p1, st1) := by
  induction sizes with
  | nil =>
    intro prev st _ _ _
    exact ⟨[], prev, _, rfl⟩
  | cons size rest ih =>
    intro prev st hseen hfit hq
    rw [List.sum_cons] at hfit
    have hpool := class_pool prev size st.already_add (by omega) hseen
    obtain ⟨ext1, st2, h2⟩ := drawLoop_extend prev (add32 prev size) q st _ hpool
      (by rw [List.length_map, List.length_range]; exact hq size (List.mem_cons_self _ _))
    have hseen2 : ∀ x ∈ st2.already_add, x ≤ add32 prev size := by
      obtain ⟨g, _, _, _, hg, hmem⟩ := drawLoop_spec _ _ _ _ st2 h2
      intro x hx
      rw [add32_exact prev size (by omega)]
      rcases (hmem x).mp hx with hxg | hxs
      · obtain ⟨_, k, hk, rfl⟩ := hg x hxg
        have := sub32_add32_le prev size
        rw [add32_exact prev k (by omega)]
        omega
      · have := hseen x hxs
        omega
    obtain ⟨ext2, p1, st1, h1⟩ := ih (add32 prev size) st2 hseen2
      (by rw [add32_exact prev size (by omega)]; omega)
      (fun c hc => hq c (List.mem_cons_of_mem _ hc))
    refine ⟨ext1 ++ ext2, p1, st1, ?_⟩
    have hm := drawLoop_mono prev (add32 prev size) ext2 q _ st2 h2
    rw [more_more] at hm
    simp only [classLoop]
    rw [hm]
    exact h1

/-- The indices of the remainder range `[0, p1]` not yet chosen: at least
`p1 + 1` minus the number of chosen indices. -/
theorem rest_pool (p1 : Nat) (seen : List Nat) (hfit : p1 < 2 ^ 32) :
    ∃ pool, FreePool 0 p1 seen pool ∧ p1 + 1 ≤ pool.length + seen.length := by
  refine ⟨(Finset.range (p1 + 1) \ seen.toFinset).toList, ⟨Finset.nodup_toList _, ?_⟩, ?_⟩
  · intro x hx
    rw [Finset.mem_toList, Finset.mem_sdiff, Finset.mem_range, List.mem_toFinset] at hx
    refine ⟨hx.2, x, ?_, ?_⟩
    · unfold sub32
      omega
    · unfold add32
      omega
  · rw [Finset.length_toList]
    have h1 := Finset.le_card_sdiff seen.toFinset (Finset.range (p1 + 1))
    have h2 := List.toFinset_card_le seen
    rw [Finset.card_range] at h1
    omega

theorem length_mul_le_sum (m : Nat) (sizes : List Nat) (h : ∀ c ∈ sizes, m ≤ c) :
    sizes.length * m ≤ sizes.sum := by
  induction sizes with
  | nil => simp
  | cons c rest ih =>
    have h1 := h c (List.mem_cons_self _ _)
    have h2 := ih (fun d hd => h d (List.mem_cons_of_mem _ hd))
    rw [List.length_cons, List.sum_cons, Nat.succ_mul]
    omega

theorem le_mul_ceil (B k : Nat) (hk : 0 < k) : B ≤ k * ((B + k - 1) / k) := by
  have h1 := Nat.div_add_mod (B + k - 1) k
  have h2 := Nat.mod_lt (B + k - 1) hk
  generalize k * ((B + k - 1) / k) = p at h1 ⊢
  omega

theorem quota_le_ceil (B k : Nat) : B / k ≤ (B + k - 1) / k := by
  rcases Nat.eq_zero_or_pos k with h0 | hk
  · subst h0; simp
  · exact Nat.div_le_div_right (by omega)

/-- C21. On the stratified path (total above 20), with `k ≥ 1` classes whose
counts are all at least `⌈B / k⌉` (and sum to less than `2 ^ 31`), no
draw-and-reject loop is ever left without an index to choose: whatever engine
outputs `rng` the run has consumed so far, in the per-class draws over
`[offset_i, offset_i + c_i]` or in the remainder draws over `[0, Σ c_i]`, there
are further outputs `ext` with which every loop ends and the sampler returns a
batch. The bound `B ≥ 1` is not needed. -/
theorem stratified_draws_progress (B : Nat) (each_size : List Nat) (t : Nat)
    (h20 : 20 < t) (hk : each_size ≠ [])
    (hc : ∀ c ∈ each_size, (B + each_size.length - 1) / each_size.length ≤ c)
    (hfit : each_size.sum < 2 ^ 31) (rng : List Nat) :
    ∃ ext b, GetRandomSampleClassIndex B each_size t (rng ++ ext) = some b := by
  have hlen : 0 < each_size.length := List.length_pos.mpr hk
  have hq : ∀ c ∈ each_size, B / each_size.length ≤ c := fun c hcm =>
    Nat.le_trans (quota_le_ceil B each_size.length) (hc c hcm)
  have hsum : B ≤ each_size.sum :=
    Nat.le_trans (le_mul_ceil B each_size.length hlen) (length_mul_le_sum _ each_size hc)
  obtain ⟨ext1, p1, st1, h1⟩ := classLoop_extend (B / each_size.length) each_size 0
    { batch_index := [], already_add := [], rng := rng } (by simp) (by omega) hq
  have hp1 : p1 = each_size.sum := by
    have := (classLoop_upper _ _ _ _ p1 st1 h1 (by omega)).1
    omega
  have hseen := classLoop_seen_length _ _ _ _ p1 st1 h1
  obtain ⟨pool, hpool, hpl⟩ := rest_pool p1 st1.already_add (by omega)
  have hdm := Nat.div_add_mod B each_size.length
  have hcomm := Nat.mul_comm each_size.length (B / each_size.length)
  have hs0 : (Sampling.more { batch_index := [], already_add := [], rng := rng }
      ext1).already_add.length = 0 := rfl
  obtain ⟨ext2, st2, h2⟩ := drawLoop_extend 0 p1 (B % each_size.length) st1 pool hpool
    (by omega)
  have hm := classLoop_mono _ ext2 _ _ _ p1 st1 h1
  rw [more_more] at hm
  refine ⟨ext1 ++ ext2, st2.batch_index, ?_⟩
  unfold GetRandomSampleClassIndex
  rw [if_neg (by omega)]
  simp only []
  rw [if_neg (by omega), size_each_sample_eq B _ hlen]
  have hm2 : classLoop (B / each_size.length) each_size 0
      { batch_index := [], already_add := [], rng := rng ++ (ext1 ++ ext2) }
      = some (p1, st1.more ext2) := hm
  rw [hm2]
  simp only []
  rw [h2]
  rfl

/-- C21 at a concrete call: two classes of 11, batch size 4, after two equal
draws; the run is inside the first class's loop and can be completed. -/
theorem stratified_draws_progress_witness :
    GetRandomSampleClassIndex 4 [11, 11] 22 [3, 3] = none ∧
    ∃ ext b, GetRandomSampleClassIndex 4 [11, 11] 22 ([3, 3] ++ ext) = some b :=
  ⟨by decide,
   stratified_draws_progress 4 [11, 11] 22 (by decide) (by decide) (by decide)
     (by norm_num) [3, 3]⟩

end Lantern
